import Mathlib

/-! C_Text_Compression: a shallow embedding of `bits.c`, `wordlist.c`, `pack.c`, `unpack.c`.

Conventions of the embedding.

* A byte (`unsigned char`) is a `Nat`; every conversion to `unsigned char` is an explicit
  `% 256`.
* A C string is the list of its bytes before the terminating NUL.
* An output `FILE *` is the list of bytes written so far (`fputc` appends);
  an input `FILE *` is the list of bytes not yet read (`fgetc` takes the head, `EOF` when
  the list is empty).
* A function that mutates `*pending` or a stream returns the new values.
-/

namespace CTextCompression

/-! ## bits.c -/

/-- Modelled from the spec: `bits.h` is not among the sources; the number of bits in a
byte, used by `bits.c` as `BITS_PER_BYTE`. -/
def BITS_PER_BYTE : Nat := 8

/-- Modelled from the spec: `bits.h` is not among the sources. The spec describes the
state as "an unsigned byte buffer of not-yet-flushed bits and a count"; `bits.c` uses
the two fields `bits` (assigned through `(unsigned char)` casts) and `bitCount`. -/
structure PendingBits where
  /-- The buffered bits, an `unsigned char`. -/
  bits : Nat
  /-- How many low-order bits of `bits` are in use. -/
  bitCount : Nat
deriving DecidableEq, Repr

/-- The constant `EOF` of `stdio.h`. -/
def EOF : Int := -1

/-- The call `fputc(c, fp)`: the byte `(unsigned char) c` is appended to the stream. -/
def fputc (c : Nat) (fp : List Nat) : List Nat :=
  fp ++ [c % 256]

/-- The call `fgetc(fp)`: the next byte of the stream as an `int`, or `EOF` at its end. -/
def fgetc : List Nat → Int × List Nat
  | [] => (EOF, [])
  | b :: fp => ((b : Int), fp)

/-- Conversion of an `int` to `unsigned char` (as in `nextByte = fgetc(fp)`). -/
def toUChar (v : Int) : Nat :=
  (v % 256).toNat

/-- The function `flushBits(pending, fp)` of `bits.c`: writes the buffer unconditionally and clears
the state. -/
def flushBits (pending : PendingBits) (fp : List Nat) : PendingBits × List Nat :=
  let fp := fputc pending.bits fp
  let pending := { pending with bits := 0 }
  let pending := { pending with bitCount := 0 }
  (pending, fp)

/-- The function `writeCode(code, pending, fp)` of `bits.c`, for a non-negative `code`. -/
def writeCode (code : Nat) (pending : PendingBits) (fp : List Nat) :
    PendingBits × List Nat :=
  let bitCt := pending.bitCount
  let codeOut := (code <<< bitCt) % 256
  let codeOut := (codeOut ||| pending.bits) % 256
  let pending := { pending with bits := (code >>> (BITS_PER_BYTE - bitCt)) % 256 }
  let fp := fputc codeOut fp
  let bitCt := bitCt + 1
  let (pending, fp) :=
    if bitCt = BITS_PER_BYTE then flushBits pending fp else (pending, fp)
  ({ pending with bitCount := bitCt % BITS_PER_BYTE }, fp)

/-- The function `readCode(pending, fp)` of `bits.c`: the code, the new pending state and the rest of
the stream. Both end-of-file tests are commented out in the source, so an `EOF` from
`fgetc` is stored into the `unsigned char nextByte` like any other value. -/
def readCode (pending : PendingBits) (fp : List Nat) : Int × PendingBits × List Nat :=
  let (pending, fp) :=
    if pending.bitCount = 0 then
      let (c, fp) := fgetc fp
      let nextByte := toUChar c
      let pending := { pending with bits := nextByte }
      ({ pending with bitCount := BITS_PER_BYTE }, fp)
    else (pending, fp)
  let bitCt := pending.bitCount
  let (c, fp) := fgetc fp
  let nextByte := toUChar c
  let shortMask := 0x01FF
  let nByteShort := nextByte
  let nByte := ((nByteShort <<< bitCt) &&& shortMask) % 65536
  let code := pending.bits ||| nByte
  let pending :=
    { pending with bits := (nextByte >>> (BITS_PER_BYTE - (bitCt - 1))) % 256 }
  let bitCt := bitCt - 1
  (((code : Nat) : Int), { pending with bitCount := bitCt }, fp)

/-- The writes of pack's loop alone: `writeCode` once for each code, in order. -/
def writeCodes : List Nat → PendingBits → List Nat → PendingBits × List Nat
  | [], pending, fp => (pending, fp)
  | code :: codes, pending, fp =>
    let (pending, fp) := writeCode code pending fp
    writeCodes codes pending fp

/-- The end of pack's `main` (pack.c 131-134): `flushBits` only when bits are pending. -/
def packFlush (pending : PendingBits) (fp : List Nat) : PendingBits × List Nat :=
  if pending.bitCount ≠ 0 then flushBits pending fp else (pending, fp)

/-- The file pack writes for a sequence of codes: the writes from the empty state
`{ 0, 0 }` into an empty file, then the guarded flush. -/
def packBytes (codes : List Nat) : List Nat :=
  let (pending, fp) := writeCodes codes { bits := 0, bitCount := 0 } []
  (packFlush pending fp).2

/-- As many calls of `readCode` in a row as `count` says: the codes returned, the final state and the
unread rest of the stream. -/
def readCodes : Nat → PendingBits → List Nat → List Int × PendingBits × List Nat
  | 0, pending, fp => ([], pending, fp)
  | count + 1, pending, fp =>
    let (code, pending, fp) := readCode pending fp
    let (codes, pending, fp) := readCodes count pending fp
    (code :: codes, pending, fp)

/-! ## wordlist.h, wordlist.c -/

/-- Minimum length of a word in the word file. -/
def WORD_MIN : Nat := 2

/-- Maximum length of a word. -/
def WORD_MAX : Nat := 20

/-- Initial capacity of the word list. -/
def WORDLIST_INIT_SIZE : Nat := 128

/-- Maximum number of words in the word file. -/
def MAX_WORDS : Nat := 414

/-- Exit status for an invalid word file. -/
def ERR_WORDFILE_FMT : Nat := 200

/-- The type `Word` of wordlist.h, `char[WORD_MAX + 1]`, holding a C string: here the
list of its bytes before the NUL. -/
abbrev Word := List Nat

/-- The struct `WordList` of wordlist.h; `words` lists the entries `words[0]`, ...
that have been stored. -/
structure WordList where
  /-- Number of words in the word list. -/
  len : Nat
  /-- Capacity of the allocated array. -/
  capacity : Nat
  /-- The stored words. -/
  words : List Word
deriving DecidableEq, Repr

/-- How a run of a function that may call `exit` ends. -/
inductive Run (α : Type) where
  /-- The function returned this value. -/
  | done (a : α)
  /-- The process ended through `exit(status)`. -/
  | exit (status : Nat)
  /-- The iteration bound of the embedding was reached; no run of the program
  corresponds to this (see `readWordList_ne_fuelOut`). -/
  | fuelOut
deriving DecidableEq, Repr

/-- Conversion of an `int` to `char` (signed, as on the usual targets): the value of
`char currentChar = fgetc(fp)`, and of a byte of a text buffer read as `char`. -/
def toChar (v : Int) : Int :=
  (v + 128) % 256 - 128

/-- The function `validChar(ch)` of wordlist.c. -/
def validChar (ch : Int) : Bool :=
  ch == 0x09 || ch == 0x0A || ch == 0x0D || (decide (ch ≥ 0x20) && decide (ch ≤ 0x7E))

/-- The function `strcmp(s1, s2)` of the C library: the strings are compared byte by byte as
`unsigned char`; only the sign of the result is specified, here -1, 0 or 1. -/
def strcmp : List Nat → List Nat → Int
  | [], [] => 0
  | [], _ :: _ => -1
  | _ :: _, [] => 1
  | a :: s1, b :: s2 => if a < b then -1 else if b < a then 1 else strcmp s1 s2

/-- The function `strComp(s1, s2)` of wordlist.c, the comparator given to `qsort` and `bsearch`. -/
def strComp (s1 s2 : Word) : Int :=
  let str1 := s1
  let str2 := s2
  strcmp str1 str2

/-- The function `qsort(base, nmemb, size, compar)` of the C library: the first `nmemb` elements
are put in ascending order of `compar`. The C library does not fix the algorithm;
insertion sort stands for it. (For `strComp`, two elements compare equal only when they
are the same string, so every sorting algorithm gives the same list of strings.) -/
def qsort (base : List Word) (nmemb : Nat) (compar : Word → Word → Int) : List Word :=
  List.insertionSort (fun a b => compar a b ≤ 0) (base.take nmemb) ++ base.drop nmemb

/-- The loop of `bsearch` as in the GNU C library: `fuel` bounds the iterations
(`u - l` are enough), `l` and `u` delimit the part still searched. -/
def bsearchLoop (key : Word) (base : List Word) (compar : Word → Word → Int) :
    Nat → Nat → Nat → Option Nat
  | 0, _, _ => none
  | fuel + 1, l, u =>
    if l < u then
      let idx := (l + u) / 2
      let comparison := compar key (base.getD idx [])
      if comparison < 0 then bsearchLoop key base compar fuel l idx
      else if comparison > 0 then bsearchLoop key base compar fuel (idx + 1) u
      else some idx
    else none

/-- The function `bsearch(key, base, nmemb, size, compar)` of the C library: the index of an element
that compares equal to `key` (the returned pointer minus `base`), or `none` for `NULL`. -/
def bsearch (key : Word) (base : List Word) (nmemb : Nat)
    (compar : Word → Word → Int) : Option Nat :=
  bsearchLoop key base compar nmemb 0 nmemb

/-- The function `isspace(c)` of the C library, in the C locale. -/
def isspace (c : Nat) : Bool :=
  c == 32 || (decide (9 ≤ c) && decide (c ≤ 13))

/-- The function `isdigit(c)` of the C library. -/
def isdigit (c : Nat) : Bool :=
  decide (48 ≤ c) && decide (c ≤ 57)

/-- Value of a string of decimal digits. -/
def digitsValue (ds : List Nat) : Nat :=
  ds.foldl (fun acc d => 10 * acc + (d - 48)) 0

/-- The function `fscanf(fp, "%d", &length)`: the returned value, the new content of `length` and the
rest of the stream. White space is skipped; at the end of the stream the result is `EOF`;
an optional sign and the longest run of digits are consumed; without a digit nothing is
stored and the result is 0. The digits are converted exactly (C leaves a value that does
not fit an `int` undefined). -/
def fscanfInt (length : Int) (fp : List Nat) : Int × Int × List Nat :=
  match fp.dropWhile isspace with
  | [] => (EOF, length, [])
  | c :: rest =>
    let body := if c = 45 ∨ c = 43 then rest else c :: rest
    let digits := body.takeWhile isdigit
    if digits = [] then (0, length, body)
    else
      let value : Int := if c = 45 then -(digitsValue digits : Int) else digitsValue digits
      (1, value, body.dropWhile isdigit)

/-- The loop `for (int i = 0; i < length; i++)` of `readWordList` reading the characters
of one word: `none` when a character fails `validChar` (then the program exits),
otherwise the word and the rest of the stream. -/
def readWord : Nat → List Nat → Option (Word × List Nat)
  | 0, fp => some ([], fp)
  | n + 1, fp =>
    let (c, fp) := fgetc fp
    let currentChar := toChar c
    if !validChar currentChar then none
    else
      match readWord n fp with
      | none => none
      | some (word, fp) => some (toUChar currentChar :: word, fp)

/-- The statement `strcpy(wordList->words[wordList->len++], word)`. -/
def pushWord (wordList : WordList) (word : Word) : WordList :=
  { wordList with words := wordList.words ++ [word], len := wordList.len + 1 }

/-- One pass through the `while` loop of `readWordList` (wordlist.c 64-91), its condition
and its body. `length` is the current content of the local variable `length`, which
`fscanf` leaves unchanged when it converts nothing. The result is `.done none` when
`fscanf` returns `EOF` and the loop is over, `.done (some (length, wordList, fp))` with
the state after the body, `.exit` when the body calls `exit`. -/
def readRecord (length : Int) (wordList : WordList) (fp : List Nat) :
    Run (Option (Int × WordList × List Nat)) :=
  let (matched, length, fp) := fscanfInt length fp
  if matched = EOF then .done none
  else if (length < WORD_MIN ∨ length > WORD_MAX) ∨ wordList.len ≥ MAX_WORDS then
    .exit ERR_WORDFILE_FMT
  else
    let wordList :=
      if wordList.len ≥ wordList.capacity then
        { wordList with capacity := wordList.capacity * 2 }
      else wordList
    let (_, fp) := fgetc fp
    match readWord length.toNat fp with
    | none => .exit ERR_WORDFILE_FMT
    | some (word, fp) =>
      let wordList := pushWord wordList word
      let (_, fp) := fgetc fp
      .done (some (length, wordList, fp))

/-- The `while` loop of `readWordList`; the first argument bounds the number of passes. -/
def readRecords : Nat → Int → WordList → List Nat → Run WordList
  | 0, _, _, _ => .fuelOut
  | fuel + 1, length, wordList, fp =>
    match readRecord length wordList fp with
    | .done none => .done wordList
    | .done (some (length, wordList, fp)) => readRecords fuel length wordList fp
    | .exit status => .exit status
    | .fuelOut => .fuelOut

/-- The end of `readWordList` before the sort (wordlist.c 96-117): tab, newline, carriage
return and the characters 0x20 to 0x7E are appended as one-character words. -/
def addSingles (wordList : WordList) : WordList :=
  let wordList := pushWord wordList [0x09]
  let wordList := pushWord wordList [0x0A]
  let wordList := pushWord wordList [0x0D]
  (List.range' 0x20 (0x7E + 1 - 0x20)).foldl (fun wl i => pushWord wl [i]) wordList

/-- The function `readWordList(fname)` of wordlist.c, on the content `file` of the opened word file.
`length0` is the indeterminate initial content of the local `length` (read only when the
first `fscanf` converts nothing); `wordList->len`, which the source never initialises, is
taken to start at 0. -/
def readWordList (length0 : Int) (file : List Nat) : Run WordList :=
  let wordList : WordList := { len := 0, capacity := WORDLIST_INIT_SIZE, words := [] }
  match readRecords (file.length + 1) length0 wordList file with
  | .done wordList =>
    let wordList := addSingles wordList
    .done { wordList with words := qsort wordList.words wordList.len strComp }
  | .exit status => .exit status
  | .fuelOut => .fuelOut

/-- The loop `for (int i = 0; i < lenStr; i++)` of `bestCode`; the first argument counts
the iterations still to run, `lenStr - i`. -/
def bestCodeLoop (wordList : WordList) (str : List Nat) (lenStr : Nat) :
    Nat → Nat → Int
  | 0, _ => -1
  | n + 1, i =>
    let strPrefix := str.take (lenStr - i)
    match bsearch strPrefix wordList.words wordList.len strComp with
    | some code => (code : Int)
    | none => bestCodeLoop wordList str lenStr n (i + 1)

/-- The function `bestCode(wordList, str)` of wordlist.c. -/
def bestCode (wordList : WordList) (str : List Nat) : Int :=
  let lenStr := if str.length < WORD_MAX then str.length else WORD_MAX
  bestCodeLoop wordList str lenStr lenStr 0

/-! ## pack.c, unpack.c -/

/-- The C string that starts at a position of a buffer: the bytes before the first NUL. -/
def cstr (buffer : List Nat) : List Nat :=
  buffer.takeWhile (fun b => b != 0)

/-- The function `readFile(fp)` of pack.c: the whole input followed by a NUL. -/
def readFile (fp : List Nat) : List Nat :=
  fp ++ [0]

/-- How pack's encoding loop ends. -/
inductive PackRun where
  /-- The loop reached the end of the text: the codes passed to `writeCode` in order,
  the pending state, the output written and the final `pos`. -/
  | done (codes : List Nat) (pending : PendingBits) (output : List Nat) (pos : Nat)
  /-- The loop printed "Invalid character code" with this byte and called
  `exit(ERR_WORDFILE_FMT)`. -/
  | invalidChar (byte : Nat)
  /-- The loop used `wordList->words[code]` outside the stored words (for instance with
  `code == -1`) or read `buffer` past its NUL: C gives this no meaning. -/
  | undef
  /-- The iteration bound of the embedding was reached. -/
  | fuelOut
deriving DecidableEq, Repr

/-- The encoding loop of pack's `main` (pack.c 111-129) over `buffer`, the result of
`readFile`. `codes` records the codes handed to `writeCode` so far. -/
def packLoop (wordList : WordList) (buffer : List Nat) :
    Nat → Nat → PendingBits → List Nat → List Nat → PackRun
  | 0, _, _, _, _ => .fuelOut
  | fuel + 1, pos, pending, output, codes =>
    match buffer.drop pos with
    | [] => .undef
    | c :: rest =>
      if c = 0 then .done codes pending output pos
      else if !validChar (toChar c) then .invalidChar (c % 256)
      else
        let code := bestCode wordList (cstr (c :: rest))
        if code < 0 then .undef
        else
          match wordList.words[code.toNat]? with
          | none => .undef
          | some word =>
            let (pending, output) := writeCode code.toNat pending output
            packLoop wordList buffer fuel (pos + word.length) pending output
              (codes ++ [code.toNat])

/-- Pack's `main` after the word list is built and the text read: the encoding loop from
`pos = 0` with `pending = { 0, 0 }` and an empty output, then the guarded flush. -/
def pack (wordList : WordList) (text : List Nat) : PackRun :=
  let buffer := readFile text
  match packLoop wordList buffer (buffer.length + 1) 0 { bits := 0, bitCount := 0 } [] [] with
  | .done codes pending output pos =>
    let (pending, output) := packFlush pending output
    .done codes pending output pos
  | r => r

/-- How unpack's decoding loop ends. -/
inductive UnpackRun where
  /-- The loop ended: the codes read, the text written, the unread input. -/
  | done (codes : List Int) (output : List Nat) (input : List Nat)
  /-- The loop used `wordList->words[code]` outside the stored words: the source has no
  test for this, and C gives it no meaning. -/
  | undef
  /-- The iteration bound of the embedding was reached. -/
  | fuelOut
deriving DecidableEq, Repr

/-- The decoding loop of unpack's `main` (unpack.c 88-98); `sz` is the size of the input
file, and the first argument bounds the iterations (`i` grows at each of them, so
`sz + 1` are enough). `codes` records the codes read so far. -/
def unpackLoop (wordList : WordList) (sz : Nat) :
    Nat → Nat → PendingBits → List Nat → List Nat → List Int → UnpackRun
  | 0, _, _, _, _, _ => .fuelOut
  | fuel + 1, i, pending, input, output, codes =>
    if i < sz then
      let i := if pending.bitCount = 0 then i + 1 else i
      let (code, pending, input) := readCode pending input
      if code < 0 then .undef
      else
        match wordList.words[code.toNat]? with
        | none => .undef
        | some word =>
          unpackLoop wordList sz fuel (i + 1) pending input (output ++ word)
            (codes ++ [code])
    else .done codes output input

/-- Unpack's `main` after the word list is built, on the content of the input file. -/
def unpack (wordList : WordList) (file : List Nat) : UnpackRun :=
  let sz := file.length
  unpackLoop wordList sz (sz + 1) 0 { bits := 0, bitCount := 0 } file [] []

/-- The text unpack writes for a sequence of codes: `fprintf(output, "%s", words[code])`
for each in order; `none` when a code is outside the stored words. -/
def decodeCodes (wordList : WordList) : List Nat → Option (List Nat)
  | [] => some []
  | code :: codes =>
    match wordList.words[code]?, decodeCodes wordList codes with
    | some word, some text => some (word ++ text)
    | _, _ => none

/-- Little-endian value of a byte sequence: byte `j` has weight `2 ^ (8 * j)`. -/
def leValue : List Nat → Nat
  | [] => 0
  | b :: bs => b + 256 * leValue bs

/-- Value of a sequence of 9-bit codes laid out contiguously, the first code lowest. -/
def codesValue : List Nat → Nat
  | [] => 0
  | c :: cs => c + 512 * codesValue cs

/-! ## Vocabulary of the statements -/

/-- The order in which `qsort` leaves the word list: `strComp` of an earlier and a later
entry is never positive. -/
def WordsSorted (words : List Word) : Prop :=
  List.Pairwise (fun a b => strComp a b ≤ 0) words

/-- The 98 characters of the alphabet in the order in which `readWordList` appends them:
tab, line feed, carriage return, then 0x20 to 0x7E. -/
def alphabet : List Nat :=
  [0x09, 0x0A, 0x0D] ++ List.range' 0x20 95

/-- The 98 one-character words that `readWordList` appends. -/
def singleWords : List Word :=
  alphabet.map (fun c => [c])

/-- The initial word list of `readWordList`: no word, capacity `WORDLIST_INIT_SIZE`. -/
def emptyWordList : WordList :=
  { len := 0, capacity := WORDLIST_INIT_SIZE, words := [] }

/-- The word list as the reading loop of `readWordList` leaves it, before the
one-character words are appended and the list sorted. -/
def readUserWords (length0 : Int) (file : List Nat) : Run WordList :=
  readRecords (file.length + 1) length0 emptyWordList file

/-- A word as the reading loop of `readWordList` stores it: `WORD_MIN` to `WORD_MAX`
bytes, all of the alphabet. -/
def UserWord (w : Word) : Prop :=
  WORD_MIN ≤ w.length ∧ w.length ≤ WORD_MAX ∧ ∀ b ∈ w, b ∈ alphabet

/-- What the encoder relies on in a built word list: `len` counts the stored words, they
are sorted, every one-character word of the alphabet is among them, and every word has
1 to `WORD_MAX` bytes of the alphabet. -/
def Dictionary (wl : WordList) : Prop :=
  wl.len = wl.words.length ∧ WordsSorted wl.words ∧ (∀ c ∈ alphabet, [c] ∈ wl.words) ∧
    ∀ w ∈ wl.words, 1 ≤ w.length ∧ w.length ≤ WORD_MAX ∧ ∀ b ∈ w, b ∈ alphabet

instance (words : List Word) : Decidable (WordsSorted words) := by
  unfold WordsSorted
  infer_instance

/-! ## Concrete inputs -/

/-- The word file "3 the\n2 in\n". -/
def theInFile : List Nat :=
  [51, 32, 116, 104, 101, 10, 50, 32, 105, 110, 10]

/-- The text "the in". -/
def theInText : List Nat :=
  [116, 104, 101, 32, 105, 110]

/-- The word list `readWordList` builds from `theInFile`: 100 words, "in" at index 77 and
"the" at index 89; the space is at index 3. -/
def theInWordList : WordList :=
  { len := 100
    capacity := 128
    words := [[9], [10], [13]] ++ (List.range' 32 74).map (fun c => [c]) ++ [[105, 110]] ++
      (List.range' 106 11).map (fun c => [c]) ++ [[116, 104, 101]] ++
      (List.range' 117 10).map (fun c => [c]) }

/-- What the reading loop leaves for `theInFile`: the two words in file order. -/
def theInUserWords : WordList :=
  { len := 2, capacity := 128, words := [[116, 104, 101], [105, 110]] }

/-- A sorted word list holding just "t" and "the". -/
def tTheWordList : WordList :=
  { len := 2, capacity := 128, words := [[116], [116, 104, 101]] }

/-- A word file of 414 records "2 xy\n" with pairwise distinct two-letter words. -/
def fullWordFile : List Nat :=
  ((List.range 414).map (fun i => (97 + i / 26, 97 + i % 26))).flatMap
    (fun p => [50, 32, p.1, p.2, 10])

/-- The word file "20 aaaaaaaaaaaaaaaaaaaa\n". -/
def length20File : List Nat :=
  [50, 48, 32] ++ List.replicate 20 97 ++ [10]

/-- The word file "21 aaaaaaaaaaaaaaaaaaaaa\n". -/
def length21File : List Nat :=
  [50, 49, 32] ++ List.replicate 21 97 ++ [10]

/-- The word file "1 a\n". -/
def length1File : List Nat :=
  [49, 32, 97, 10]

/-- The word list `readWordList` builds from `length20File`: the word of twenty "a"
comes right after the one-character word "a". -/
def length20WordList : WordList :=
  { len := 99
    capacity := 128
    words := [[9], [10], [13]] ++ (List.range' 32 66).map (fun c => [c]) ++
      [List.replicate 20 97] ++ (List.range' 98 29).map (fun c => [c]) }

/-- A word file of 31 records "2 xy\n" with pairwise distinct two-letter words. -/
def thirtyOneWordFile : List Nat :=
  ((List.range 31).map (fun i => (97 + i / 26, 97 + i % 26))).flatMap
    (fun p => [50, 32, p.1, p.2, 10])

/-- A compressed file of two bytes whose first nine bits are the code 511. -/
def code511File : List Nat :=
  [255, 1]

/-- The text "the", the byte 0x80, "in". -/
def invalidText : List Nat :=
  [116, 104, 101, 128, 105, 110]

/-! # Lemmas -/

set_option maxRecDepth 100000

/-! ## Lemmas on the bit stream -/

theorem leValue_append (xs ys : List Nat) :
    leValue (xs ++ ys) = leValue xs + 256 ^ xs.length * leValue ys := by
  induction xs with
  | nil => simp [leValue]
  | cons x xs ih =>
    show leValue (x :: (xs ++ ys)) = _
    simp only [leValue, ih, List.length_cons, pow_succ]; ring

theorem shl_mod_or (code p bits : Nat) (hp : p ≤ 8) (hb : bits < 2 ^ p) :
    ((code <<< p) % 256 ||| bits) = (code * 2 ^ p) % 256 + bits := by
  have h1 : (code <<< p) % 256 = 2 ^ p * ((code * 2 ^ p) % 256 / 2 ^ p) := by
    rw [Nat.shiftLeft_eq]
    interval_cases p <;> omega
  rw [h1, ← Nat.mul_add_lt_is_or hb, ← h1, Nat.shiftLeft_eq]

theorem writeCode_spec (code p bits : Nat) (fp : List Nat) (hp : p ≤ 7)
    (hb : bits < 2 ^ p) (hc : code < 512) :
    ∃ out b', writeCode code ⟨bits, p⟩ fp = (⟨b', (p + 1) % 8⟩, fp ++ out) ∧
      b' < 2 ^ ((p + 1) % 8) ∧ 8 * out.length + (p + 1) % 8 = p + 9 ∧
      leValue (out ++ [b']) = bits + 2 ^ p * code ∧
      ∀ x ∈ out, x < 256 := by
  have hor := shl_mod_or code p bits (by omega) hb
  by_cases h7 : p = 7
  · subst h7
    refine ⟨[((code <<< 7) % 256 ||| bits) % 256, (code >>> 1) % 256 % 256], 0, ?_, ?_, ?_, ?_, ?_⟩
    · simp [writeCode, flushBits, fputc, BITS_PER_BYTE]
    · simp
    · simp
    · rw [hor]; simp [leValue, Nat.shiftRight_eq_div_pow]; simp at hb; omega
    · intro x hx; simp at hx; omega
  · refine ⟨[((code <<< p) % 256 ||| bits) % 256], (code >>> (8 - p)) % 256, ?_, ?_, ?_, ?_, ?_⟩
    · have : ¬ (p + 1 = 8) := by omega
      simp [writeCode, flushBits, fputc, BITS_PER_BYTE, this]
    · rw [Nat.mod_eq_of_lt (by omega : p + 1 < 8), Nat.shiftRight_eq_div_pow]
      interval_cases p <;> simp <;> omega
    · simp; omega
    · rw [hor]; simp [leValue, Nat.shiftRight_eq_div_pow]
      interval_cases p <;> simp at hb ⊢ <;> omega
    · intro x hx; simp at hx; omega

theorem writeCodes_spec (codes : List Nat) (hc : ∀ c ∈ codes, c < 512) :
    ∀ (p bits : Nat) (fp : List Nat), p ≤ 7 → bits < 2 ^ p → (∀ x ∈ fp, x < 256) →
    ∃ fp' b', writeCodes codes ⟨bits, p⟩ fp = (⟨b', (p + codes.length) % 8⟩, fp') ∧
      b' < 2 ^ ((p + codes.length) % 8) ∧
      8 * fp'.length + (p + codes.length) % 8 = 8 * fp.length + p + 9 * codes.length ∧
      leValue (fp' ++ [b']) =
        leValue (fp ++ [bits]) + 2 ^ (8 * fp.length + p) * codesValue codes ∧
      ∀ x ∈ fp', x < 256 := by
  induction codes with
  | nil =>
    intro p bits fp hp hb hfp
    refine ⟨fp, bits, ?_, ?_, ?_, ?_, hfp⟩
    · simp [writeCodes, Nat.mod_eq_of_lt (by omega : p < 8)]
    · simpa [Nat.mod_eq_of_lt (by omega : p < 8)] using hb
    · simp; omega
    · simp [codesValue]
  | cons c cs ih =>
    intro p bits fp hp hb hfp
    obtain ⟨out, b1, e1, hb1, hlen1, hval1, hout⟩ :=
      writeCode_spec c p bits fp hp hb (hc c (by simp))
    have hfp1 : ∀ x ∈ fp ++ out, x < 256 := by
      intro x hx
      rcases List.mem_append.mp hx with h | h
      · exact hfp x h
      · exact hout x h
    obtain ⟨fp2, b2, e2, hb2, hlen2, hval2, hfp2⟩ :=
      ih (fun x hx => hc x (by simp [hx])) ((p + 1) % 8) b1 (fp ++ out)
        (by omega) hb1 hfp1
    have hmod : ((p + 1) % 8 + cs.length) % 8 = (p + (cs.length + 1)) % 8 := by omega
    rw [hmod] at e2 hb2 hlen2
    refine ⟨fp2, b2, ?_, hb2, ?_, ?_, hfp2⟩
    · simp only [writeCodes, e1, List.length_cons]; exact e2
    · simp only [List.length_cons, List.length_append] at hlen2 ⊢; omega
    · rw [hval2, List.append_assoc, leValue_append, hval1, leValue_append]
      have hexp : 8 * (fp ++ out).length + (p + 1) % 8 = 8 * fp.length + p + 9 := by
        simp only [List.length_append]; omega
      rw [hexp]
      simp only [leValue, codesValue, pow_add, pow_mul]
      norm_num
      ring

theorem or_shl_and (bits b q : Nat) (hq : q ≤ 8) (hb : bits < 2 ^ q) :
    (bits ||| ((b <<< q) &&& 0x01FF) % 65536) = bits + (b * 2 ^ q) % 512 := by
  have h511 : (0x01FF : Nat) = 2 ^ 9 - 1 := by norm_num
  rw [h511, Nat.and_pow_two_sub_one_eq_mod, Nat.shiftLeft_eq]
  have h0 : b * 2 ^ q % 2 ^ 9 % 65536 = b * 2 ^ q % 512 := by
    norm_num
    omega
  have h1 : b * 2 ^ q % 512 = 2 ^ q * ((b * 2 ^ q) % 512 / 2 ^ q) := by
    interval_cases q <;> omega
  rw [h0, Nat.or_comm, h1, ← Nat.mul_add_lt_is_or hb, ← h1, Nat.add_comm]

theorem toUChar_byte (b : Nat) (hb : b < 256) : toUChar (b : Int) = b := by
  unfold toUChar
  omega

/-- One step of the reader on a stream that still holds at least 9 unread bits. -/
theorem readCode_spec (q bits : Nat) (fp : List Nat) (hq : q ≤ 7) (hb : bits < 2 ^ q)
    (hfp : ∀ x ∈ fp, x < 256) (hlen : 9 ≤ q + 8 * fp.length) :
    ∃ b' fp', readCode ⟨bits, q⟩ fp =
        ((((bits + 2 ^ q * leValue fp) % 512 : Nat) : Int), ⟨b', (q + 7) % 8⟩, fp') ∧
      b' < 2 ^ ((q + 7) % 8) ∧
      b' + 2 ^ ((q + 7) % 8) * leValue fp' = (bits + 2 ^ q * leValue fp) / 512 ∧
      (q + 7) % 8 + 8 * fp'.length + 9 = q + 8 * fp.length ∧
      ∀ x ∈ fp', x < 256 := by
  by_cases h0 : q = 0
  · subst h0
    match fp, hfp, hlen with
    | [], _, hlen => simp at hlen
    | [_], _, hlen => simp at hlen
    | b0 :: b1 :: rest, hfp, _ =>
      have hb0 : b0 < 256 := hfp b0 (by simp)
      have hb1 : b1 < 256 := hfp b1 (by simp)
      have hor := or_shl_and b0 b1 8 (by omega) (by omega)
      refine ⟨(b1 >>> 1) % 256, rest, ?_, ?_, ?_, ?_, ?_⟩
      · simp only [readCode, fgetc, BITS_PER_BYTE, if_true, toUChar_byte b0 hb0,
          toUChar_byte b1 hb1, hor]
        simp [leValue]
        omega
      · simp [Nat.shiftRight_eq_div_pow]; omega
      · simp [leValue, Nat.shiftRight_eq_div_pow]; simp at hb; omega
      · simp; omega
      · intro x hx; exact hfp x (by simp [hx])
  · match fp, hfp, hlen with
    | [], _, hlen => simp at hlen; omega
    | b1 :: rest, hfp, _ =>
      have hb1 : b1 < 256 := hfp b1 (by simp)
      have hor := or_shl_and bits b1 q (by omega) hb
      refine ⟨(b1 >>> (8 - (q - 1))) % 256, rest, ?_, ?_, ?_, ?_, ?_⟩
      · have hq7 : (q + 7) % 8 = q - 1 := by omega
        simp only [readCode, fgetc, BITS_PER_BYTE, if_neg h0, toUChar_byte b1 hb1, hor, hq7]
        simp [leValue]
        interval_cases q <;> simp at hb ⊢ <;> omega
      · simp only [Nat.shiftRight_eq_div_pow]
        interval_cases q <;> simp at hb ⊢ <;> omega
      · simp only [leValue, Nat.shiftRight_eq_div_pow]
        interval_cases q <;> simp at hb ⊢ <;> omega
      · simp; omega
      · intro x hx; exact hfp x (by simp [hx])

theorem readCodes_spec (codes : List Nat) (hc : ∀ c ∈ codes, c < 512) :
    ∀ (q bits : Nat) (fp : List Nat), q ≤ 7 → bits < 2 ^ q → (∀ x ∈ fp, x < 256) →
      9 * codes.length ≤ q + 8 * fp.length →
      bits + 2 ^ q * leValue fp = codesValue codes →
      (readCodes codes.length ⟨bits, q⟩ fp).1 = codes.map (fun c => (c : Int)) := by
  induction codes with
  | nil => intro q bits fp _ _ _ _ _; rfl
  | cons c cs ih =>
    intro q bits fp hq hb hfp hlen hval
    simp only [List.length_cons] at hlen
    obtain ⟨b1, fp1, e1, hb1, hval1, hlen1, hfp1⟩ :=
      readCode_spec q bits fp hq hb hfp (by omega)
    have hc0 : c < 512 := hc c (by simp)
    simp only [codesValue] at hval
    have ih1 := ih (fun x hx => hc x (by simp [hx])) ((q + 7) % 8) b1 fp1 (by omega) hb1
      hfp1 (by omega) (by rw [hval1, hval]; omega)
    simp only [List.length_cons, readCodes, e1, List.map_cons]
    rw [ih1, hval]
    congr 2
    omega

theorem leValue_eq_sum (l : List Nat) :
    leValue l = ∑ j in Finset.range l.length, l.getD j 0 * 2 ^ (8 * j) := by
  induction l with
  | nil => simp [leValue]
  | cons b bs ih =>
    simp only [leValue, List.length_cons, Finset.sum_range_succ', ih, Finset.mul_sum]
    simp only [List.getD_cons_succ, List.getD_cons_zero, Nat.mul_zero, pow_zero, Nat.mul_one]
    rw [Nat.add_comm]
    congr 1
    apply Finset.sum_congr rfl
    intro j _
    rw [Nat.mul_add, pow_add]
    ring

theorem codesValue_eq_sum (l : List Nat) :
    codesValue l = ∑ i in Finset.range l.length, l.getD i 0 * 2 ^ (9 * i) := by
  induction l with
  | nil => simp [codesValue]
  | cons b bs ih =>
    simp only [codesValue, List.length_cons, Finset.sum_range_succ', ih, Finset.mul_sum]
    simp only [List.getD_cons_succ, List.getD_cons_zero, Nat.mul_zero, pow_zero, Nat.mul_one]
    rw [Nat.add_comm]
    congr 1
    apply Finset.sum_congr rfl
    intro j _
    rw [Nat.mul_add, pow_add]
    ring

/-- What pack writes for a list of codes: length, byte range and little-endian value. -/
theorem packBytes_spec (codes : List Nat) (hc : ∀ c ∈ codes, c < 512) :
    8 * (packBytes codes).length = 9 * codes.length + (8 - codes.length % 8) % 8 ∧
      (∀ b ∈ packBytes codes, b < 256) ∧
      leValue (packBytes codes) = codesValue codes := by
  obtain ⟨fp, b, e, hb, hlen, hval, hfp⟩ :=
    writeCodes_spec codes hc 0 0 [] (by omega) (by simp) (by simp)
  simp only [Nat.zero_add, List.length_nil, Nat.mul_zero] at e hb hlen
  simp only [leValue, List.nil_append, List.length_nil, Nat.mul_zero, Nat.add_zero,
    pow_zero, Nat.one_mul, Nat.zero_add] at hval
  unfold packBytes
  rw [e]
  by_cases h0 : codes.length % 8 = 0
  · have hb0 : b = 0 := by rw [h0] at hb; simpa using hb
    subst hb0
    simp only [packFlush, h0, ne_eq, not_true_eq_false, if_false]
    refine ⟨by omega, hfp, ?_⟩
    rw [← hval, leValue_append]
    simp [leValue]
  · simp only [packFlush, h0, ne_eq, not_false_eq_true, if_true, flushBits, fputc]
    have hb256 : b < 256 := by
      have : (2 : Nat) ^ (codes.length % 8) ≤ 2 ^ 7 :=
        Nat.pow_le_pow_right (by omega) (by omega)
      omega
    rw [Nat.mod_eq_of_lt hb256]
    refine ⟨by simp only [List.length_append, List.length_singleton]; omega, ?_, hval⟩
    intro x hx
    rcases List.mem_append.mp hx with h | h
    · exact hfp x h
    · simp at h; omega

/-! ## Lemmas on `strcmp`, `qsort` and `bsearch` -/

theorem strcmp_cases (a b : List Nat) : strcmp a b = -1 ∨ strcmp a b = 0 ∨ strcmp a b = 1 := by
  induction a generalizing b with
  | nil => cases b <;> simp [strcmp]
  | cons x xs ih =>
    cases b with
    | nil => simp [strcmp]
    | cons y ys =>
      simp only [strcmp]
      split
      · simp
      · split
        · simp
        · exact ih ys

theorem strcmp_eq_zero (a b : List Nat) : strcmp a b = 0 ↔ a = b := by
  induction a generalizing b with
  | nil => cases b <;> simp [strcmp]
  | cons x xs ih =>
    cases b with
    | nil => simp [strcmp]
    | cons y ys =>
      simp only [strcmp, List.cons.injEq]
      split
      · simp; omega
      · split
        · simp; omega
        · rw [ih]
          constructor
          · intro h; exact ⟨by omega, h⟩
          · intro h; exact h.2

theorem strcmp_self (a : List Nat) : strcmp a a = 0 :=
  (strcmp_eq_zero a a).mpr rfl

theorem strcmp_antisymm (a b : List Nat) : strcmp b a = - strcmp a b := by
  induction a generalizing b with
  | nil => cases b <;> simp [strcmp]
  | cons x xs ih =>
    cases b with
    | nil => simp [strcmp]
    | cons y ys =>
      simp only [strcmp]
      by_cases h1 : x < y
      · have : ¬ y < x := by omega
        simp [h1, this]
      · by_cases h2 : y < x
        · simp [h1, h2]
        · simp [h1, h2, ih]

theorem strcmp_lt_trans (a b c : List Nat) (h1 : strcmp a b < 0) (h2 : strcmp b c < 0) :
    strcmp a c < 0 := by
  induction a generalizing b c with
  | nil =>
    cases c with
    | nil => cases b <;> simp [strcmp] at h1 h2
    | cons z zs => simp [strcmp]
  | cons x xs ih =>
    cases b with
    | nil => simp [strcmp] at h1
    | cons y ys =>
      cases c with
      | nil => simp [strcmp] at h2
      | cons z zs =>
        simp only [strcmp] at h1 h2 ⊢
        by_cases hxy : x < y
        · by_cases hyz : y < z
          · have : x < z := by omega
            simp [this]
          · by_cases hzy : z < y
            · simp [hyz, hzy] at h2
            · have : x < z := by omega
              simp [this]
        · by_cases hyx : y < x
          · simp [hxy, hyx] at h1
          · simp only [hxy, hyx, if_false] at h1
            by_cases hyz : y < z
            · have : x < z := by omega
              simp [this]
            · by_cases hzy : z < y
              · simp [hyz, hzy] at h2
              · simp only [hyz, hzy, if_false] at h2
                have e1 : ¬ x < z := by omega
                have e2 : ¬ z < x := by omega
                simp only [e1, e2, if_false]
                exact ih ys zs h1 h2

theorem strcmp_le_trans (a b c : List Nat) (h1 : strcmp a b ≤ 0) (h2 : strcmp b c ≤ 0) :
    strcmp a c ≤ 0 := by
  rcases lt_or_eq_of_le h1 with h1 | h1
  · rcases lt_or_eq_of_le h2 with h2 | h2
    · exact Int.le_of_lt (strcmp_lt_trans a b c h1 h2)
    · rw [strcmp_eq_zero] at h2; subst h2; exact Int.le_of_lt h1
  · rw [strcmp_eq_zero] at h1; subst h1; exact h2

theorem strcmp_le_total (a b : List Nat) : strcmp a b ≤ 0 ∨ strcmp b a ≤ 0 := by
  rw [strcmp_antisymm a b]
  omega

theorem insertionSort_strComp_sorted (l : List Word) :
    WordsSorted (List.insertionSort (fun a b => strComp a b ≤ 0) l) := by
  haveI : IsTotal Word (fun a b => strComp a b ≤ 0) := ⟨fun a b => strcmp_le_total a b⟩
  haveI : IsTrans Word (fun a b => strComp a b ≤ 0) :=
    ⟨fun a b c h1 h2 => strcmp_le_trans a b c h1 h2⟩
  exact List.sorted_insertionSort _ l

theorem qsort_full (base : List Word) :
    qsort base base.length strComp =
      List.insertionSort (fun a b => strComp a b ≤ 0) base := by
  simp [qsort]

theorem qsort_sorted (base : List Word) : WordsSorted (qsort base base.length strComp) := by
  rw [qsort_full]; exact insertionSort_strComp_sorted base

theorem qsort_perm (base : List Word) : (qsort base base.length strComp).Perm base := by
  rw [qsort_full]; exact List.perm_insertionSort _ base

/-- In a sorted list, entries at increasing positions are in order. -/
theorem WordsSorted.le_of_le {words : List Word} (h : WordsSorted words) {i j : Nat}
    (hij : i ≤ j) (hj : j < words.length) :
    strComp (words.getD i []) (words.getD j []) ≤ 0 := by
  rcases Nat.lt_or_eq_of_le hij with hlt | heq
  · have hi : i < words.length := by omega
    have := (List.pairwise_iff_getElem.mp h) i j hi hj hlt
    rw [List.getD_eq_getElem _ _ hi, List.getD_eq_getElem _ _ hj]
    exact this
  · subst heq; exact Int.le_of_eq (strcmp_self _)

theorem bsearchLoop_sound (key : Word) (base : List Word) :
    ∀ (fuel l u i : Nat), bsearchLoop key base strComp fuel l u = some i →
      l ≤ i ∧ i < u ∧ base.getD i [] = key := by
  intro fuel
  induction fuel with
  | zero => intro l u i h; simp [bsearchLoop] at h
  | succ n ih =>
    intro l u i h
    simp only [bsearchLoop] at h
    split at h
    · split at h
      · obtain ⟨h1, h2, h3⟩ := ih _ _ _ h
        exact ⟨h1, by omega, h3⟩
      · split at h
        · obtain ⟨h1, h2, h3⟩ := ih _ _ _ h
          exact ⟨by omega, h2, h3⟩
        · simp only [Option.some.injEq] at h
          subst h
          refine ⟨by omega, by omega, ?_⟩
          have h0 : strComp key (base.getD ((l + u) / 2) []) = 0 := by omega
          exact ((strcmp_eq_zero _ _).mp h0).symm
    · simp at h

theorem bsearchLoop_complete (key : Word) (base : List Word) (hs : WordsSorted base) :
    ∀ (fuel l u j : Nat), u - l ≤ fuel → l ≤ j → j < u → u ≤ base.length →
      base.getD j [] = key → ∃ i, bsearchLoop key base strComp fuel l u = some i := by
  intro fuel
  induction fuel with
  | zero => intro l u j hf hl hu; omega
  | succ n ih =>
    intro l u j hf hl hu hlen hkey
    simp only [bsearchLoop]
    have hlu : l < u := by omega
    simp only [hlu, if_true]
    split
    · rename_i hneg
      apply ih l ((l + u) / 2) j (by omega) hl ?_ (by omega) hkey
      by_contra hge
      have := hs.le_of_le (i := (l + u) / 2) (j := j) (by omega) (by omega)
      rw [hkey] at this
      have h2 := strcmp_antisymm key (base.getD ((l + u) / 2) [])
      simp only [strComp] at this hneg
      omega
    · split
      · rename_i hpos
        apply ih ((l + u) / 2 + 1) u j (by omega) ?_ hu hlen hkey
        by_contra hge
        have := hs.le_of_le (i := j) (j := (l + u) / 2) (by omega) (by omega)
        rw [hkey] at this
        simp only [strComp] at this hpos
        omega
      · exact ⟨_, rfl⟩

theorem bsearch_sound (key : Word) (base : List Word) (i : Nat)
    (h : bsearch key base base.length strComp = some i) : base[i]? = some key := by
  obtain ⟨_, h2, h3⟩ := bsearchLoop_sound key base _ _ _ _ h
  rw [List.getD_eq_getElem _ _ h2] at h3
  rw [List.getElem?_eq_getElem h2, h3]

theorem bsearch_complete (key : Word) (base : List Word) (hs : WordsSorted base)
    (hmem : key ∈ base) : ∃ i, bsearch key base base.length strComp = some i := by
  obtain ⟨j, hj, hkey⟩ := List.getElem_of_mem hmem
  apply bsearchLoop_complete key base hs base.length 0 base.length j (by omega) (by omega) hj
    (Nat.le_refl _)
  rw [List.getD_eq_getElem _ _ hj, hkey]

theorem bsearch_none (key : Word) (base : List Word) (hs : WordsSorted base)
    (h : bsearch key base base.length strComp = none) : key ∉ base := by
  intro hmem
  obtain ⟨i, hi⟩ := bsearch_complete key base hs hmem
  rw [h] at hi
  exact Option.noConfusion hi

/-! ## Lemmas on `readWordList` -/

theorem mem_alphabet_iff (b : Nat) :
    b ∈ alphabet ↔ b = 9 ∨ b = 10 ∨ b = 13 ∨ (32 ≤ b ∧ b ≤ 126) := by
  simp only [alphabet, List.mem_append, List.mem_range', List.mem_cons, List.mem_nil_iff,
    or_false]
  constructor
  · rintro ((h | h | h) | ⟨i, hi, rfl⟩)
    · exact Or.inl h
    · exact Or.inr (Or.inl h)
    · exact Or.inr (Or.inr (Or.inl h))
    · exact Or.inr (Or.inr (Or.inr ⟨by omega, by omega⟩))
  · rintro (h | h | h | ⟨h1, h2⟩)
    · exact Or.inl (Or.inl h)
    · exact Or.inl (Or.inr (Or.inl h))
    · exact Or.inl (Or.inr (Or.inr h))
    · exact Or.inr ⟨b - 32, by omega, by omega⟩

theorem validChar_iff (ch : Int) :
    validChar ch = true ↔ ch = 9 ∨ ch = 10 ∨ ch = 13 ∨ (32 ≤ ch ∧ ch ≤ 126) := by
  simp [validChar, or_assoc]

/-- A character accepted by `validChar` is stored as a byte of the alphabet. -/
theorem validChar_toUChar (ch : Int) (h : validChar ch = true) : toUChar ch ∈ alphabet := by
  rw [validChar_iff] at h
  rw [mem_alphabet_iff]
  unfold toUChar
  omega

/-- A byte is valid as a `char` exactly when it is in the alphabet. -/
theorem validChar_byte_iff (b : Nat) (hb : b < 256) :
    validChar (toChar (b : Int)) = true ↔ b ∈ alphabet := by
  rw [validChar_iff, mem_alphabet_iff]
  unfold toChar
  omega

theorem alphabet_ne_zero (b : Nat) (h : b ∈ alphabet) : b ≠ 0 := by
  rw [mem_alphabet_iff] at h; omega

theorem alphabet_lt (b : Nat) (h : b ∈ alphabet) : b < 256 := by
  rw [mem_alphabet_iff] at h; omega

theorem alphabet_length : alphabet.length = 98 := by decide

theorem singleWords_length : singleWords.length = 98 := by
  simp [singleWords, alphabet_length]

theorem readWord_spec : ∀ (n : Nat) (fp : List Nat) (word : Word) (fp' : List Nat),
    readWord n fp = some (word, fp') →
      word.length = n ∧ (∀ b ∈ word, b ∈ alphabet) ∧ fp'.length + n = fp.length := by
  intro n
  induction n with
  | zero =>
    intro fp word fp' h
    simp only [readWord, Option.some.injEq, Prod.mk.injEq] at h
    obtain ⟨rfl, rfl⟩ := h
    simp
  | succ n ih =>
    intro fp word fp' h
    cases fp with
    | nil => simp [readWord, fgetc, EOF, toChar, validChar] at h
    | cons c rest =>
      simp only [readWord, fgetc] at h
      split at h
      · exact Option.noConfusion h
      · rename_i hv
        split at h
        · exact Option.noConfusion h
        · rename_i w1 fp1 hrec
          simp only [Option.some.injEq, Prod.mk.injEq] at h
          obtain ⟨rfl, rfl⟩ := h
          obtain ⟨h1, h2, h3⟩ := ih _ _ _ hrec
          refine ⟨by simp [h1], ?_, by simp; omega⟩
          intro b hb
          rcases List.mem_cons.mp hb with rfl | hb
          · apply validChar_toUChar
            simpa using hv
          · exact h2 b hb

theorem dropWhile_length_le (p : Nat → Bool) (l : List Nat) :
    (l.dropWhile p).length ≤ l.length := by
  induction l with
  | nil => simp
  | cons x xs ih =>
    simp only [List.dropWhile]
    split
    · simp; omega
    · simp

/-- The model of `fscanf` does not lengthen the stream. When it does not return `EOF`, the stream was
not at its end. -/
theorem fscanfInt_length (length : Int) (fp : List Nat) :
    (fscanfInt length fp).2.2.length ≤ fp.length ∧
      ((fscanfInt length fp).1 ≠ EOF → 0 < fp.length) := by
  unfold fscanfInt
  have hd := dropWhile_length_le isspace fp
  split
  · rename_i h
    refine ⟨by simp, ?_⟩
    intro hne
    exact absurd rfl hne
  · rename_i c rest h
    rw [h] at hd
    simp only [List.length_cons] at hd
    have hbody : (if c = 45 ∨ c = 43 then rest else c :: rest).length ≤ fp.length := by
      split
      · omega
      · simp; omega
    refine ⟨?_, fun _ => by omega⟩
    dsimp only
    generalize (if c = 45 ∨ c = 43 then rest else c :: rest) = body at hbody ⊢
    split
    · exact hbody
    · exact Nat.le_trans (dropWhile_length_le _ _) hbody

theorem grow_len (wl : WordList) :
    (if wl.len ≥ wl.capacity then { wl with capacity := wl.capacity * 2 } else wl).len =
      wl.len := by
  split <;> rfl

theorem grow_words (wl : WordList) :
    (if wl.len ≥ wl.capacity then { wl with capacity := wl.capacity * 2 } else wl).words =
      wl.words := by
  split <;> rfl

theorem grow_capacity (wl : WordList) :
    (if wl.len ≥ wl.capacity then { wl with capacity := wl.capacity * 2 } else wl).capacity =
      if wl.len ≥ wl.capacity then wl.capacity * 2 else wl.capacity := by
  split <;> rfl

/-- What one pass of the reading loop does when it stores a word. -/
theorem readRecord_some (length : Int) (wl : WordList) (fp : List Nat) (L : Int)
    (wl' : WordList) (fp' : List Nat)
    (h : readRecord length wl fp = .done (some (L, wl', fp'))) :
    ∃ word : Word, wl'.words = wl.words ++ [word] ∧ wl'.len = wl.len + 1 ∧
      UserWord word ∧ wl.len < MAX_WORDS ∧
      wl'.capacity = (if wl.len ≥ wl.capacity then wl.capacity * 2 else wl.capacity) ∧
      fp'.length < fp.length := by
  simp only [readRecord] at h
  split at h
  · simp at h
  · rename_i hne
    split at h
    · exact Run.noConfusion h
    · rename_i hchk
      split at h
      · exact Run.noConfusion h
      · rename_i word fp1 hword
        obtain ⟨hw1, hw2, hw3⟩ := readWord_spec _ _ _ _ hword
        obtain ⟨hl1, hl2⟩ := fscanfInt_length length fp
        simp only [not_or, not_lt, ge_iff_le, not_le, MAX_WORDS, WORD_MIN, WORD_MAX,
          Nat.cast_ofNat] at hchk
        obtain ⟨⟨hmin, hmax⟩, hcnt⟩ := hchk
        simp only [Run.done.injEq, Option.some.injEq, Prod.mk.injEq] at h
        obtain ⟨hL, hwl, hfp⟩ := h
        subst hwl hfp
        refine ⟨word, ?_, ?_, ⟨?_, ?_, hw2⟩, ?_, ?_, ?_⟩
        · simp only [pushWord, grow_words]
        · simp only [pushWord, grow_len]
        · simp only [WORD_MIN]; omega
        · simp only [WORD_MAX]; omega
        · simp only [MAX_WORDS]; omega
        · simp only [pushWord, grow_capacity]
        · have hf1 : (fgetc fp1).2.length ≤ fp1.length := by
            cases fp1 <;> simp [fgetc]
          have hf2 : (fgetc (fscanfInt length fp).2.2).2.length ≤
              (fscanfInt length fp).2.2.length := by
            cases (fscanfInt length fp).2.2 <;> simp [fgetc]
          have key : ∀ (a b c d e : Nat) (L : Int), 2 ≤ L → a + L.toNat = b → b ≤ c →
              c ≤ d → e ≤ a → e < d := by
            intros; omega
          exact key _ _ _ _ _ _ hmin hw3 hf2 hl1 hf1

theorem readRecord_ne_fuelOut (length : Int) (wl : WordList) (fp : List Nat) :
    readRecord length wl fp ≠ .fuelOut := by
  simp only [readRecord]
  split
  · intro h; exact Run.noConfusion h
  · split
    · intro h; exact Run.noConfusion h
    · split
      · intro h; exact Run.noConfusion h
      · intro h; exact Run.noConfusion h

/-- What the reading loop has done when it ends normally. -/
theorem readRecords_spec : ∀ (fuel : Nat) (length : Int) (wl : WordList) (fp : List Nat)
    (wl' : WordList), readRecords fuel length wl fp = .done wl' →
      ∃ new : List Word, wl'.words = wl.words ++ new ∧ wl'.len = wl.len + new.length ∧
        (∀ w ∈ new, UserWord w) ∧ (wl.len ≤ MAX_WORDS → wl'.len ≤ MAX_WORDS) ∧
        (wl.len ≤ wl.capacity → 0 < wl.capacity → wl'.len ≤ wl'.capacity) ∧
        ∃ k, wl'.capacity = wl.capacity * 2 ^ k := by
  intro fuel
  induction fuel with
  | zero => intro length wl fp wl' h; simp [readRecords] at h
  | succ n ih =>
    intro length wl fp wl' h
    simp only [readRecords] at h
    split at h
    · simp only [Run.done.injEq] at h
      subst h
      exact ⟨[], by simp, by simp, by simp, fun h => h, fun h _ => h, 0, by simp⟩
    · rename_i L wl1 fp1 hrec
      obtain ⟨word, r1, r2, r3, r4, r5, _⟩ := readRecord_some _ _ _ _ _ _ hrec
      obtain ⟨new, h1, h2, h3, h4, h5, k, h6⟩ := ih _ _ _ _ h
      refine ⟨word :: new, ?_, ?_, ?_, ?_, ?_, ?_⟩
      · rw [h1, r1]; simp
      · rw [h2, r2, List.length_cons]; omega
      · intro w hw
        rcases List.mem_cons.mp hw with rfl | hw
        · exact r3
        · exact h3 w hw
      · intro _
        apply h4
        omega
      · intro hcap hpos
        apply h5
        · rw [r2, r5]; split <;> omega
        · rw [r5]; split <;> omega
      · rw [r5] at h6
        split at h6
        · exact ⟨k + 1, by rw [h6]; simp only [pow_succ]; ring⟩
        · exact ⟨k, h6⟩
    · exact Run.noConfusion h
    · exact Run.noConfusion h

/-- The iteration bound `file.length + 1` is never reached: every pass of the reading
loop that goes on consumes at least one byte. -/
theorem readRecords_ne_fuelOut : ∀ (fuel : Nat) (length : Int) (wl : WordList)
    (fp : List Nat), fp.length < fuel → readRecords fuel length wl fp ≠ .fuelOut := by
  intro fuel
  induction fuel with
  | zero => intro length wl fp h; omega
  | succ n ih =>
    intro length wl fp hfuel h
    simp only [readRecords] at h
    split at h
    · exact Run.noConfusion h
    · rename_i L wl1 fp1 hrec
      obtain ⟨_, _, _, _, _, _, hlt⟩ := readRecord_some _ _ _ _ _ _ hrec
      exact ih _ _ _ (by omega) h
    · exact Run.noConfusion h
    · rename_i hrec
      exact readRecord_ne_fuelOut _ _ _ hrec

theorem addSingles_eq (wl : WordList) :
    addSingles wl =
      { len := wl.len + 98, capacity := wl.capacity, words := wl.words ++ singleWords } := by
  have hfold : ∀ (l : List Nat) (w : WordList),
      l.foldl (fun wl i => pushWord wl [i]) w =
        { len := w.len + l.length, capacity := w.capacity,
          words := w.words ++ l.map (fun c => [c]) } := by
    intro l
    induction l with
    | nil => intro w; simp
    | cons x xs ih =>
      intro w
      simp only [List.foldl_cons, ih]
      simp only [pushWord, List.length_cons, List.map_cons,
        List.append_assoc, List.singleton_append, WordList.mk.injEq, and_true, true_and]
      omega
  simp only [addSingles, hfold]
  simp [pushWord, singleWords, alphabet]

/-- What `readWordList` returns, in terms of what the reading loop stored. -/
theorem readWordList_done (length0 : Int) (file : List Nat) (wl : WordList)
    (h : readWordList length0 file = .done wl) :
    ∃ user : WordList, readUserWords length0 file = .done user ∧
      user.len = user.words.length ∧ user.len ≤ MAX_WORDS ∧
      (∀ w ∈ user.words, UserWord w) ∧
      wl.len = user.len + 98 ∧ wl.capacity = user.capacity ∧
      wl.words = List.insertionSort (fun a b => strComp a b ≤ 0)
        (user.words ++ singleWords) := by
  simp only [readWordList] at h
  unfold readUserWords emptyWordList
  split at h
  · rename_i user hu
    simp only [Run.done.injEq] at h
    obtain ⟨new, h1, h2, h3, h4, _⟩ := readRecords_spec _ _ _ _ _ hu
    simp only [List.nil_append, Nat.zero_add] at h1 h2
    have hlen : user.len = user.words.length := by rw [h2, h1]
    refine ⟨user, hu, hlen, h4 (by simp [MAX_WORDS]), by rw [h1]; exact h3, ?_, ?_, ?_⟩
    · rw [← h, addSingles_eq]
    · rw [← h, addSingles_eq]
    · rw [← h, addSingles_eq]
      simp only
      have : user.len + 98 = (user.words ++ singleWords).length := by
        simp [hlen, singleWords_length]
      rw [this, qsort_full]
  · exact Run.noConfusion h
  · exact Run.noConfusion h

theorem readWordList_ne_fuelOut (length0 : Int) (file : List Nat) :
    readWordList length0 file ≠ .fuelOut := by
  simp only [readWordList]
  split
  · intro h; exact Run.noConfusion h
  · intro h; exact Run.noConfusion h
  · rename_i hf
    exact absurd hf (readRecords_ne_fuelOut _ _ _ _ (Nat.lt_succ_self _))

/-! ## Records that the reading loop accepts -/

theorem toUChar_toChar_alphabet (b : Nat) (h : b ∈ alphabet) :
    toUChar (toChar (b : Int)) = b := by
  rw [mem_alphabet_iff] at h
  unfold toUChar toChar
  omega

/-- The loop over the characters of a word reads a word of alphabet characters whole. -/
theorem readWord_alphabet (word rest : List Nat) (h : ∀ b ∈ word, b ∈ alphabet) :
    readWord word.length (word ++ rest) = some (word, rest) := by
  induction word with
  | nil => simp [readWord]
  | cons x xs ih =>
    have hx : x ∈ alphabet := h x (by simp)
    have hv : validChar (toChar (x : Int)) = true :=
      (validChar_byte_iff x (alphabet_lt x hx)).mpr hx
    simp only [List.length_cons, List.cons_append, readWord, fgetc, hv, Bool.not_true,
      Bool.false_eq_true, if_false, ih (fun b hb => h b (by simp [hb])),
      toUChar_toChar_alphabet x hx]

/-- A pass of the reading loop at a record with a length from 2 to 20 and as many
characters of the alphabet stores the word, after the test for a resize
(wordlist.c 71-74), and goes on behind the byte that follows the word. -/
theorem readRecord_accept (length : Int) (wl : WordList) (fp : List Nat) (L : Int)
    (sep : Nat) (word rest : List Nat)
    (hdecl : fscanfInt length fp = (1, L, sep :: (word ++ rest)))
    (hlen : word.length = L.toNat) (hword : ∀ b ∈ word, b ∈ alphabet)
    (hcount : wl.len < MAX_WORDS) (hL : 2 ≤ L ∧ L ≤ 20) :
    readRecord length wl fp =
      .done (some (L,
        pushWord (if wl.len ≥ wl.capacity then { wl with capacity := wl.capacity * 2 }
          else wl) word,
        (fgetc rest).2)) := by
  have h1 : ¬ (1 : Int) = EOF := by decide
  have h2 : ¬ ((L < (WORD_MIN : Nat) ∨ L > (WORD_MAX : Nat)) ∨ wl.len ≥ MAX_WORDS) := by
    simp only [WORD_MIN, WORD_MAX, Nat.cast_ofNat]
    omega
  simp only [readRecord, hdecl, h1, if_false, h2, fgetc, ← hlen, readWord_alphabet word rest hword]

/-- A pass of the reading loop at a record whose length is below 2 or above 20 ends the
program with the format error. -/
theorem readRecord_reject (length : Int) (wl : WordList) (fp : List Nat) (L : Int)
    (rest : List Nat) (hdecl : fscanfInt length fp = (1, L, rest))
    (hL : L < 2 ∨ L > 20) :
    readRecord length wl fp = .exit ERR_WORDFILE_FMT := by
  have h1 : ¬ (1 : Int) = EOF := by decide
  have h2 : ((L < (WORD_MIN : Nat) ∨ L > (WORD_MAX : Nat)) ∨ wl.len ≥ MAX_WORDS) := by
    simp only [WORD_MIN, WORD_MAX, Nat.cast_ofNat]
    omega
  simp only [readRecord, hdecl, h1, if_false, h2, if_true]

/-- A record "2 xy\n". -/
theorem fscanfInt_two (length : Int) (a b : Nat) (rest : List Nat) :
    fscanfInt length ([50, 32, a, b, 10] ++ rest) = (1, 2, 32 :: ([a, b] ++ 10 :: rest)) := by
  simp [fscanfInt, isspace, isdigit, digitsValue]

/-- The reading loop on a file of records "2 xy\n": all the words are stored as long as
the count stays within `MAX_WORDS`. -/
theorem readRecords_two_letter (ws : List (Nat × Nat))
    (hws : ∀ p ∈ ws, p.1 ∈ alphabet ∧ p.2 ∈ alphabet) :
    ∀ (fuel : Nat) (length : Int) (wl : WordList), ws.length < fuel →
      wl.len + ws.length ≤ MAX_WORDS →
      ∃ wl', readRecords fuel length wl (ws.flatMap (fun p => [50, 32, p.1, p.2, 10])) =
          .done wl' ∧ wl'.len = wl.len + ws.length := by
  induction ws with
  | nil =>
    intro fuel length wl hf _
    cases fuel with
    | zero => simp at hf
    | succ n => exact ⟨wl, by simp [readRecords, readRecord, fscanfInt], by simp⟩
  | cons p ps ih =>
    intro fuel length wl hf hcnt
    cases fuel with
    | zero => simp at hf
    | succ n =>
      simp only [List.length_cons] at hf hcnt
      obtain ⟨ha, hb⟩ := hws p (by simp)
      have hrec := readRecord_accept length wl
        ([50, 32, p.1, p.2, 10] ++ ps.flatMap (fun p => [50, 32, p.1, p.2, 10])) 2 32
        [p.1, p.2] (10 :: ps.flatMap (fun p => [50, 32, p.1, p.2, 10]))
        (fscanfInt_two _ _ _ _) (by simp)
        (by intro x hx; simp at hx; rcases hx with rfl | rfl <;> assumption)
        (by omega) (by omega)
      obtain ⟨wl', e, hl⟩ := ih (fun q hq => hws q (by simp [hq])) n 2
        (pushWord (if wl.len ≥ wl.capacity then { wl with capacity := wl.capacity * 2 }
          else wl) [p.1, p.2]) (by omega) (by simp only [pushWord, grow_len]; omega)
      refine ⟨wl', ?_, ?_⟩
      · simp only [List.flatMap_cons, readRecords, hrec, fgetc]
        exact e
      · simp only [pushWord, grow_len] at hl
        rw [hl, List.length_cons]; omega

theorem two_letter_file_length (ws : List (Nat × Nat)) :
    (ws.flatMap (fun p => [50, 32, p.1, p.2, 10])).length = 5 * ws.length := by
  induction ws with
  | nil => simp
  | cons p ps ih => simp only [List.flatMap_cons, List.length_append, ih, List.length_cons,
      List.length_nil]; omega

/-! ## Lemmas on `bestCode` -/

theorem readWordList_dictionary (length0 : Int) (file : List Nat) (wl : WordList)
    (h : readWordList length0 file = .done wl) : Dictionary wl := by
  obtain ⟨user, _, hlen, _, huser, h1, _, h3⟩ := readWordList_done length0 file wl h
  have hperm : wl.words.Perm (user.words ++ singleWords) := by
    rw [h3]; exact List.perm_insertionSort _ _
  refine ⟨?_, ?_, ?_, ?_⟩
  · rw [h1, hperm.length_eq, List.length_append, singleWords_length, hlen]
  · rw [h3]; exact insertionSort_strComp_sorted _
  · intro c hc
    apply hperm.mem_iff.mpr
    apply List.mem_append_right
    exact List.mem_map.mpr ⟨c, hc, rfl⟩
  · intro w hw
    rcases List.mem_append.mp (hperm.mem_iff.mp hw) with hu | hs
    · obtain ⟨h1, h2, h3⟩ := huser w hu
      exact ⟨by simp only [WORD_MIN] at h1; omega, h2, h3⟩
    · obtain ⟨c, hc, rfl⟩ := List.mem_map.mp hs
      refine ⟨by simp, by simp [WORD_MAX], ?_⟩
      intro b hb
      simp only [List.mem_singleton] at hb
      subst hb; exact hc

/-- What the loop of `bestCode` returns when it returns a code: the word found is the
prefix tried in some pass `k`, and no earlier pass found its prefix. -/
theorem bestCodeLoop_found (wl : WordList) (str : List Nat) (lenStr : Nat)
    (hlen : wl.len = wl.words.length) :
    ∀ (n i : Nat) (c : Int), bestCodeLoop wl str lenStr n i = c → 0 ≤ c →
      ∃ k, i ≤ k ∧ k < i + n ∧ c.toNat < wl.len ∧
        wl.words[c.toNat]? = some (str.take (lenStr - k)) ∧
        ∀ k', i ≤ k' → k' < k →
          bsearch (str.take (lenStr - k')) wl.words wl.len strComp = none := by
  intro n
  induction n with
  | zero => intro i c h h0; simp only [bestCodeLoop] at h; omega
  | succ n ih =>
    intro i c h h0
    simp only [bestCodeLoop] at h
    split at h
    · rename_i code hb
      subst h
      rw [hlen] at hb
      have hs := bsearch_sound _ _ _ hb
      obtain ⟨_, hlt, _⟩ := bsearchLoop_sound _ _ _ _ _ _ hb
      refine ⟨i, Nat.le_refl _, by omega, ?_, ?_, ?_⟩
      · simpa [hlen] using hlt
      · simpa using hs
      · intro k' h1 h2; omega
    · rename_i hb
      obtain ⟨k, h1, h2, h3, h4, h5⟩ := ih (i + 1) c h h0
      refine ⟨k, by omega, by omega, h3, h4, ?_⟩
      intro k' hk1 hk2
      rcases Nat.eq_or_lt_of_le hk1 with heq | hlt
      · subst heq; exact hb
      · exact h5 k' (by omega) hk2

/-- The loop of `bestCode` finds a code as soon as one of the prefixes it tries is a
word of the sorted list. -/
theorem bestCodeLoop_finds (wl : WordList) (str : List Nat) (lenStr : Nat)
    (hlen : wl.len = wl.words.length) (hs : WordsSorted wl.words) :
    ∀ (n i k : Nat), i ≤ k → k < i + n → str.take (lenStr - k) ∈ wl.words →
      0 ≤ bestCodeLoop wl str lenStr n i := by
  intro n
  induction n with
  | zero => intro i k h1 h2; omega
  | succ n ih =>
    intro i k h1 h2 hmem
    simp only [bestCodeLoop]
    split
    · exact Int.ofNat_nonneg _
    · rename_i hb
      rcases Nat.eq_or_lt_of_le h1 with heq | hlt
      · subst heq
        rw [hlen] at hb
        exact absurd hmem (bsearch_none _ _ hs hb)
      · exact ih (i + 1) k (by omega) (by omega) hmem

/-- The result of `bestCode` when it is a code: the word at that index is the prefix of
`str` of some length `m` between 1 and `min(strlen(str), WORD_MAX)`, and `bsearch` found
no longer prefix. -/
theorem bestCode_found (wl : WordList) (str : List Nat) (c : Int)
    (hlen : wl.len = wl.words.length) (h : bestCode wl str = c) (h0 : 0 ≤ c) :
    ∃ m, 1 ≤ m ∧ m ≤ str.length ∧ m ≤ WORD_MAX ∧ c.toNat < wl.len ∧
      wl.words[c.toNat]? = some (str.take m) ∧
      ∀ m', m < m' → m' ≤ str.length → m' ≤ WORD_MAX →
        bsearch (str.take m') wl.words wl.len strComp = none := by
  simp only [bestCode] at h
  obtain ⟨k, h1, h2, h3, h4, h5⟩ := bestCodeLoop_found wl str _ hlen _ _ _ h h0
  refine ⟨(if str.length < WORD_MAX then str.length else WORD_MAX) - k, ?_, ?_, ?_, h3, h4, ?_⟩
  · omega
  · split <;> omega
  · split <;> omega
  · intro m' hm1 hm2 hm3
    have ht : m' ≤ (if str.length < WORD_MAX then str.length else WORD_MAX) := by
      split <;> omega
    have := h5 ((if str.length < WORD_MAX then str.length else WORD_MAX) - m') (by omega)
      (by
        generalize (if str.length < WORD_MAX then str.length else WORD_MAX) = t at *
        omega)
    have e : (if str.length < WORD_MAX then str.length else WORD_MAX) -
        ((if str.length < WORD_MAX then str.length else WORD_MAX) - m') = m' := by
      split <;> omega
    rw [e] at this
    exact this

/-- On a sorted list, `bestCode` returns a code whenever some prefix of `str` of 1 to
`WORD_MAX` bytes is a word. -/
theorem bestCode_finds (wl : WordList) (str : List Nat) (m : Nat)
    (hlen : wl.len = wl.words.length) (hs : WordsSorted wl.words)
    (h1 : 1 ≤ m) (h2 : m ≤ str.length) (h3 : m ≤ WORD_MAX) (hmem : str.take m ∈ wl.words) :
    0 ≤ bestCode wl str := by
  simp only [bestCode]
  apply bestCodeLoop_finds wl str _ hlen hs _ 0
    ((if str.length < WORD_MAX then str.length else WORD_MAX) - m) (Nat.zero_le _)
  · split <;> omega
  · have e : (if str.length < WORD_MAX then str.length else WORD_MAX) -
        ((if str.length < WORD_MAX then str.length else WORD_MAX) - m) = m := by
      split <;> omega
    rw [e]
    exact hmem

/-! ## Lemmas on the loop of pack -/

/-- The C string at the start of a NUL-free text followed by a NUL is the text. -/
theorem cstr_append_nul (text rest : List Nat) (h : ∀ b ∈ text, b ≠ 0) :
    cstr (text ++ 0 :: rest) = text := by
  induction text with
  | nil => simp [cstr]
  | cons x xs ih =>
    have hx : x ≠ 0 := h x (by simp)
    have := ih (fun b hb => h b (by simp [hb]))
    simp only [cstr] at this ⊢
    have hx' : (x != 0) = true := by simpa using hx
    show List.takeWhile (fun b => b != 0) (x :: (xs ++ 0 :: rest)) = x :: xs
    rw [List.takeWhile_cons, this]
    simp [hx]

/-- On a dictionary and a non-empty text of the alphabet, `bestCode` returns the index
of a non-empty word that is a prefix of the text. -/
theorem bestCode_dictionary (wl : WordList) (hd : Dictionary wl) (str : List Nat)
    (hne : str ≠ []) (hstr : ∀ b ∈ str, b ∈ alphabet) :
    ∃ (c m : Nat), bestCode wl str = (c : Int) ∧ c < wl.len ∧ 1 ≤ m ∧ m ≤ str.length ∧
      m ≤ WORD_MAX ∧ wl.words[c]? = some (str.take m) ∧
      ∀ w' ∈ wl.words, w' <+: str → w'.length ≤ WORD_MAX → w'.length ≤ m := by
  obtain ⟨hlen, hs, hsingle, hwords⟩ := hd
  cases str with
  | nil => exact absurd rfl hne
  | cons x xs =>
    have h0 : 0 ≤ bestCode wl (x :: xs) := by
      apply bestCode_finds wl (x :: xs) 1 hlen hs (Nat.le_refl _) (by simp) (by simp [WORD_MAX])
      simpa using hsingle x (hstr x (by simp))
    obtain ⟨m, h1, h2, h3, h4, h5, h6⟩ := bestCode_found wl (x :: xs) _ hlen rfl h0
    refine ⟨(bestCode wl (x :: xs)).toNat, m, by omega, h4, h1, h2, h3, h5, ?_⟩
    intro w' hw' hpre hlen'
    by_contra hgt
    have hle : w'.length ≤ (x :: xs).length := hpre.length_le
    have hnone := h6 w'.length (by omega) hle hlen'
    rw [hlen] at hnone
    have := bsearch_none _ _ hs hnone
    rw [← List.prefix_iff_eq_take.mp hpre] at this
    exact this hw'

theorem readFile_drop (text : List Nat) (pos : Nat) (h : pos ≤ text.length) :
    (readFile text).drop pos = text.drop pos ++ [0] := by
  simp [readFile, List.drop_append_of_le_length h]

theorem writeCodes_append (cs : List Nat) (c : Nat) (pending : PendingBits)
    (output : List Nat) :
    writeCodes (c :: cs) pending output =
      writeCodes cs (writeCode c pending output).1 (writeCode c pending output).2 := by
  simp [writeCodes]

/-- The loop of pack on a text of the alphabet: it ends at the end of the text; the
codes it hands to `writeCode` decode to the text from `pos` on. -/
theorem packLoop_spec (wl : WordList) (hd : Dictionary wl) (text : List Nat)
    (htext : ∀ b ∈ text, b ∈ alphabet) :
    ∀ (fuel pos : Nat) (pending : PendingBits) (output codes : List Nat),
      pos ≤ text.length → text.length - pos < fuel →
      ∃ cs, packLoop wl (readFile text) fuel pos pending output codes =
          .done (codes ++ cs) (writeCodes cs pending output).1
            (writeCodes cs pending output).2 text.length ∧
        decodeCodes wl cs = some (text.drop pos) ∧ ∀ c ∈ cs, c < wl.len := by
  intro fuel
  induction fuel with
  | zero => intro pos pending output codes h1 h2; omega
  | succ n ih =>
    intro pos pending output codes hpos hfuel
    rcases Nat.eq_or_lt_of_le hpos with heq | hlt
    · subst heq
      refine ⟨[], ?_, ?_, ?_⟩
      · simp [packLoop, readFile, writeCodes]
      · simp [decodeCodes]
      · simp
    · have hdrop := readFile_drop text pos hpos
      have hne : text.drop pos ≠ [] := by
        intro h
        have := congrArg List.length h
        simp at this
        omega
      have hsub : ∀ b ∈ text.drop pos, b ∈ alphabet :=
        fun b hb => htext b (List.mem_of_mem_drop hb)
      obtain ⟨c, m, hc, hclt, hm1, hm2, hm3, hw, _⟩ :=
        bestCode_dictionary wl hd (text.drop pos) hne hsub
      obtain ⟨x, xs, hx⟩ := List.exists_cons_of_ne_nil hne
      have hxa : x ∈ alphabet := hsub x (by rw [hx]; simp)
      have hcstr : cstr (x :: (xs ++ [0])) = text.drop pos := by
        have := cstr_append_nul (text.drop pos) [] (fun b hb => alphabet_ne_zero b (hsub b hb))
        rw [hx] at this ⊢
        simpa using this
      have hmlen : (List.take m (List.drop pos text)).length = m := by
        rw [List.length_take]; omega
      simp only [List.length_drop] at hm2
      obtain ⟨cs, e1, e2, e3⟩ := ih (pos + m) (writeCode c pending output).1
        (writeCode c pending output).2 (codes ++ [c]) (by omega) (by omega)
      refine ⟨c :: cs, ?_, ?_, ?_⟩
      · simp only [packLoop, hdrop, hx, List.cons_append]
        have hv : validChar (toChar (x : Int)) = true :=
          (validChar_byte_iff x (alphabet_lt x hxa)).mpr hxa
        simp only [alphabet_ne_zero x hxa, if_false, hv, Bool.not_true, hcstr, hc,
          Int.toNat_ofNat, hw, hmlen]
        have hnn : ¬ ((c : Int) < 0) := by omega
        simp only [hnn, if_false, Bool.false_eq_true]
        rw [e1, writeCodes_append]
        simp
      · simp only [decodeCodes, hw, e2]
        rw [← List.drop_drop, List.take_append_drop]
      · intro c' hc'
        rcases List.mem_cons.mp hc' with rfl | h
        · exact hclt
        · exact e3 c' h

theorem alphabet_nodup : alphabet.Nodup := by decide

theorem singleWords_nodup : singleWords.Nodup := by
  apply List.Nodup.map _ alphabet_nodup
  intro a b h
  simpa using h

/-- Without duplicate words in the word file, no word occurs twice in the built list. -/
theorem readWordList_nodup (length0 : Int) (file : List Nat) (user wl : WordList)
    (hu : readUserWords length0 file = .done user) (hnd : user.words.Nodup)
    (hwl : readWordList length0 file = .done wl) : wl.words.Nodup := by
  obtain ⟨user', hu', _, _, huser, _, _, h3⟩ := readWordList_done length0 file wl hwl
  rw [hu] at hu'
  simp only [Run.done.injEq] at hu'
  subst hu'
  have hperm : wl.words.Perm (user.words ++ singleWords) := by
    rw [h3]; exact List.perm_insertionSort _ _
  apply hperm.symm.nodup_iff.mp
  apply List.Nodup.append hnd singleWords_nodup
  intro w h1 h2
  obtain ⟨hmin, _, _⟩ := huser w h1
  obtain ⟨c, _, rfl⟩ := List.mem_map.mp h2
  simp [WORD_MIN] at hmin

/-! ## Lemmas on invalid characters in the text -/

/-- The C string at the start of a buffer that begins with NUL-free bytes. -/
theorem cstr_append (a b : List Nat) (h : ∀ x ∈ a, x ≠ 0) : cstr (a ++ b) = a ++ cstr b := by
  induction a with
  | nil => rfl
  | cons x xs ih =>
    have hx : x ≠ 0 := h x (by simp)
    have := ih (fun y hy => h y (by simp [hy]))
    simp only [cstr] at this ⊢
    show List.takeWhile (fun b => b != 0) (x :: (xs ++ b)) = x :: (xs ++ _)
    rw [List.takeWhile_cons, this]
    simp [hx]

/-- On a dictionary, `bestCode` returns the index of a non-empty word that is a prefix
of the string as soon as the first character of the string is in the alphabet. -/
theorem bestCode_dictionary_head (wl : WordList) (hd : Dictionary wl) (x : Nat)
    (xs : List Nat) (hx : x ∈ alphabet) :
    ∃ (c m : Nat), bestCode wl (x :: xs) = (c : Int) ∧ c < wl.len ∧ 1 ≤ m ∧
      m ≤ (x :: xs).length ∧ m ≤ WORD_MAX ∧ wl.words[c]? = some ((x :: xs).take m) := by
  obtain ⟨hlen, hs, hsingle, _⟩ := hd
  have h0 : 0 ≤ bestCode wl (x :: xs) := by
    apply bestCode_finds wl (x :: xs) 1 hlen hs (Nat.le_refl _) (by simp) (by simp [WORD_MAX])
    simpa using hsingle x hx
  obtain ⟨m, h1, h2, h3, h4, h5, _⟩ := bestCode_found wl (x :: xs) _ hlen rfl h0
  exact ⟨(bestCode wl (x :: xs)).toNat, m, by omega, h4, h1, h2, h3, h5⟩

/-- A prefix made of alphabet bytes of a string that has a byte outside the alphabet at
index `n` is at most `n` bytes long. -/
theorem take_alphabet_le (pre : List Nat) (c : Nat) (post : List Nat) (m : Nat)
    (hc : c ∉ alphabet) (hw : ∀ b ∈ (pre ++ c :: post).take m, b ∈ alphabet) :
    m ≤ pre.length := by
  by_contra hgt
  apply hc
  apply hw
  rw [List.take_append_eq_append_take]
  apply List.mem_append_right
  have : m - pre.length = (m - pre.length - 1) + 1 := by omega
  rw [this, List.take_succ_cons]
  simp

/-- The loop of pack on a text whose first byte outside the alphabet is `c`: it stops at
that byte with the invalid-character error. -/
theorem packLoop_invalid (wl : WordList) (hd : Dictionary wl) (pre post : List Nat)
    (c : Nat) (hpre : ∀ b ∈ pre, b ∈ alphabet) (hc0 : c ≠ 0)
    (hcv : validChar (toChar (c : Int)) = false) (hca : c ∉ alphabet) :
    ∀ (fuel pos : Nat) (pending : PendingBits) (output codes : List Nat),
      pos ≤ pre.length → pre.length - pos < fuel →
      packLoop wl (readFile (pre ++ c :: post)) fuel pos pending output codes =
        .invalidChar (c % 256) := by
  intro fuel
  induction fuel with
  | zero => intro pos pending output codes h1 h2; omega
  | succ n ih =>
    intro pos pending output codes hpos hfuel
    have hdrop : (readFile (pre ++ c :: post)).drop pos =
        pre.drop pos ++ c :: (post ++ [0]) := by
      simp only [readFile, List.append_assoc, List.cons_append]
      rw [List.drop_append_of_le_length hpos]
    rcases Nat.eq_or_lt_of_le hpos with heq | hlt
    · subst heq
      simp only [List.drop_length, List.nil_append] at hdrop
      simp only [packLoop, hdrop, hc0, if_false, hcv, Bool.not_false, if_true]
    · have hne : pre.drop pos ≠ [] := by
        intro h
        have := congrArg List.length h
        simp at this
        omega
      obtain ⟨x, xs, hx⟩ := List.exists_cons_of_ne_nil hne
      have hsub : ∀ b ∈ pre.drop pos, b ∈ alphabet :=
        fun b hb => hpre b (List.mem_of_mem_drop hb)
      have hxa : x ∈ alphabet := hsub x (by rw [hx]; simp)
      have hcstr : cstr (x :: (xs ++ c :: (post ++ [0]))) =
          x :: (xs ++ c :: cstr (post ++ [0])) := by
        have h1 := cstr_append (x :: xs) (c :: (post ++ [0]))
          (fun b hb => alphabet_ne_zero b (by rw [← hx] at hb; exact hsub b hb))
        have h2 : cstr (c :: (post ++ [0])) = c :: cstr (post ++ [0]) := by
          simp only [cstr]
          rw [List.takeWhile_cons]
          simp [hc0]
        rw [h2] at h1
        simpa using h1
      obtain ⟨code, m, hcode, _, hm1, hm2, hm3, hw⟩ :=
        bestCode_dictionary_head wl hd x (xs ++ c :: cstr (post ++ [0])) hxa
      have hmem : List.take m (x :: (xs ++ c :: cstr (post ++ [0]))) ∈ wl.words :=
        List.getElem?_mem hw
      have hmle : m ≤ (x :: xs).length := by
        apply take_alphabet_le (x :: xs) c (cstr (post ++ [0])) m hca
        intro b hb
        exact (hd.2.2.2 _ hmem).2.2 b (by simpa using hb)
      have hxlen : (x :: xs).length = pre.length - pos := by
        rw [← hx, List.length_drop]
      have hmlen : (List.take m (x :: (xs ++ c :: cstr (post ++ [0])))).length = m := by
        rw [List.length_take]
        simp only [List.length_cons, List.length_append] at hm2 ⊢
        omega
      have hv : validChar (toChar (x : Int)) = true :=
        (validChar_byte_iff x (alphabet_lt x hxa)).mpr hxa
      have hnn : ¬ ((code : Int) < 0) := by omega
      simp only [packLoop, hdrop, hx, List.cons_append, alphabet_ne_zero x hxa, if_false, hv,
        Bool.not_true, Bool.false_eq_true, hcstr, hcode, hnn, Int.toNat_ofNat, hw, hmlen]
      exact ih (pos + m) _ _ _ (by omega) (by omega)

/-- Every text is made of alphabet bytes only, or has a first byte outside the
alphabet. -/
theorem first_invalid (text : List Nat) :
    (∀ b ∈ text, b ∈ alphabet) ∨
      ∃ pre c post, text = pre ++ c :: post ∧ (∀ b ∈ pre, b ∈ alphabet) ∧ c ∉ alphabet := by
  induction text with
  | nil => left; simp
  | cons x xs ih =>
    by_cases hx : x ∈ alphabet
    · rcases ih with h | ⟨pre, c, post, e, h1, h2⟩
      · left
        intro b hb
        rcases List.mem_cons.mp hb with rfl | hb
        · exact hx
        · exact h b hb
      · right
        refine ⟨x :: pre, c, post, by rw [e]; rfl, ?_, h2⟩
        intro b hb
        rcases List.mem_cons.mp hb with rfl | hb
        · exact hx
        · exact h1 b hb
    · right
      exact ⟨[], x, xs, rfl, by simp, hx⟩

/-- The run of pack on a text whose first byte outside the alphabet is `c`. -/
theorem pack_invalid (wl : WordList) (hd : Dictionary wl) (pre post : List Nat) (c : Nat)
    (hpre : ∀ b ∈ pre, b ∈ alphabet) (hc0 : c ≠ 0) (hc : c < 256) (hca : c ∉ alphabet) :
    pack wl (pre ++ c :: post) = .invalidChar c := by
  have hcv : validChar (toChar (c : Int)) = false := by
    cases h : validChar (toChar (c : Int)) with
    | false => rfl
    | true => exact absurd ((validChar_byte_iff c hc).mp h) hca
  have := packLoop_invalid wl hd pre post c hpre hc0 hcv hca
    ((readFile (pre ++ c :: post)).length + 1) 0 { bits := 0, bitCount := 0 } [] []
    (Nat.zero_le _) (by simp [readFile]; omega)
  simp only [pack, this, Nat.mod_eq_of_lt hc]

/-! ## Lemmas on the loop of unpack -/

/-- A call of `readCode` that finds the bytes it needs does not look at what follows
them. -/
theorem readCode_append (pending : PendingBits) (fp extra : List Nat)
    (h : (if pending.bitCount = 0 then 2 else 1) ≤ fp.length) :
    readCode pending (fp ++ extra) =
      ((readCode pending fp).1, (readCode pending fp).2.1,
        (readCode pending fp).2.2 ++ extra) := by
  by_cases h0 : pending.bitCount = 0
  · simp only [h0, if_true] at h
    match fp, h with
    | b0 :: b1 :: rest, _ => simp [readCode, fgetc, h0]
  · simp only [h0, if_false] at h
    match fp, h with
    | b1 :: rest, _ => simp [readCode, fgetc, h0]

/-- The loop of unpack on what is left of a packed file: it reads the codes still in the
file, one call of `readCode` for each, and stops with `i` at the size of the file,
leaving the bytes that follow the file unread. -/
theorem unpackLoop_spec (wl : WordList) (sz : Nat) (extra : List Nat) (codes : List Nat)
    (hc : ∀ c ∈ codes, c < 512 ∧ c < wl.words.length) :
    ∀ (fuel i q bits : Nat) (fp output : List Nat) (trace : List Int),
      q ≤ 7 → bits < 2 ^ q → (∀ x ∈ fp, x < 256) →
      8 * fp.length + q = 9 * codes.length + (q + 7 * codes.length) % 8 →
      bits + 2 ^ q * leValue fp = codesValue codes → i + fp.length = sz →
      codes.length < fuel →
      ∃ text, decodeCodes wl codes = some text ∧
        unpackLoop wl sz fuel i { bits := bits, bitCount := q } (fp ++ extra) output trace =
          .done (trace ++ codes.map (fun c => (c : Int))) (output ++ text) extra := by
  induction codes with
  | nil =>
    intro fuel i q bits fp output trace hq hb hfp hlen hval hi hfuel
    simp only [List.length_nil, Nat.mul_zero, Nat.add_zero, Nat.zero_add] at hlen
    have hfp0 : fp = [] := by
      apply List.eq_nil_of_length_eq_zero
      omega
    subst hfp0
    refine ⟨[], by simp [decodeCodes], ?_⟩
    cases fuel with
    | zero => simp at hfuel
    | succ n =>
      simp only [List.length_nil, Nat.add_zero] at hi
      simp [unpackLoop, hi]
  | cons c cs ih =>
    intro fuel i q bits fp output trace hq hb hfp hlen hval hi hfuel
    simp only [List.length_cons] at hlen hfuel
    cases fuel with
    | zero => simp at hfuel
    | succ n =>
      obtain ⟨hc512, hcw⟩ := hc c (by simp)
      obtain ⟨b1, fp1, e1, hb1, hval1, hlen1, hfp1⟩ :=
        readCode_spec q bits fp hq hb hfp (by omega)
      simp only [codesValue] at hval
      have hcode : (bits + 2 ^ q * leValue fp) % 512 = c := by rw [hval]; omega
      rw [hcode] at e1
      have happ := readCode_append { bits := bits, bitCount := q } fp extra
        (by show (if q = 0 then 2 else 1) ≤ fp.length; split <;> omega)
      rw [e1] at happ
      obtain ⟨text, hdec, hloop⟩ := ih (fun x hx => hc x (by simp [hx])) n
        ((if q = 0 then i + 1 else i) + 1) ((q + 7) % 8) b1 fp1
        (output ++ wl.words[c]) (trace ++ [(c : Int)]) (by omega) hb1 hfp1 (by omega)
        (by rw [hval1, hval]; omega) (by split <;> omega) (by omega)
      refine ⟨wl.words[c] ++ text, ?_, ?_⟩
      · simp only [decodeCodes, List.getElem?_eq_getElem hcw, hdec]
      · have hlt : i < sz := by omega
        have hnn : ¬ ((c : Int) < 0) := by omega
        simp only [unpackLoop, hlt, if_true, happ, hnn, if_false, Int.toNat_ofNat,
          List.getElem?_eq_getElem hcw]
        rw [hloop]
        simp

/-! # The claims -/

/-- C1. Text round trip: for a word list that `readWordList` built from any word file it
accepts (duplicate words allowed) and a text of alphabet characters, the loop of pack
runs to the end of the text, what it writes is the packing of the codes it handed to
`writeCode`, and concatenating `words[code]` for these codes, as unpack does, gives the
text back. -/
theorem text_round_trip (length0 : Int) (file : List Nat) (wl : WordList) (text : List Nat)
    (hwl : readWordList length0 file = .done wl) (htext : ∀ b ∈ text, b ∈ alphabet) :
    ∃ codes pending output, pack wl text = .done codes pending output text.length ∧
      output = packBytes codes ∧ decodeCodes wl codes = some text := by
  have hd := readWordList_dictionary length0 file wl hwl
  obtain ⟨cs, e1, e2, _⟩ := packLoop_spec wl hd text htext ((readFile text).length + 1) 0
    { bits := 0, bitCount := 0 } [] [] (Nat.zero_le _) (by simp [readFile]; omega)
  refine ⟨cs, (packFlush (writeCodes cs { bits := 0, bitCount := 0 } []).1
    (writeCodes cs { bits := 0, bitCount := 0 } []).2).1, packBytes cs, ?_, rfl,
    by simpa using e2⟩
  simp only [pack, e1, List.nil_append, packBytes]

/-- Witness of C1: the word file "3 the\n2 in\n" and the text "the in" give the three
codes of "the", " " and "in", which decode to "the in". -/
theorem text_round_trip_witness :
    readWordList 0 theInFile = .done theInWordList ∧
      pack theInWordList theInText =
        .done [89, 3, 77] { bits := 0, bitCount := 0 } [89, 6, 52, 1] 6 ∧
      decodeCodes theInWordList [89, 3, 77] = some theInText ∧
      ∃ codes pending output,
        pack theInWordList theInText = .done codes pending output theInText.length ∧
        output = packBytes codes ∧ decodeCodes theInWordList codes = some theInText :=
  ⟨by decide, by decide, by decide,
    text_round_trip 0 theInFile theInWordList theInText (by decide) (by decide)⟩

/-- C2. Bit-packing round trip: for codes in [0, 511], the bytes produced from the empty
state by one `writeCode` per code and then the guarded flush of pack, read back from the
empty state by as many calls of `readCode`, give the same codes in the same order. -/
theorem bitpacking_round_trip (codes : List Nat) (hc : ∀ c ∈ codes, c ≤ 511) :
    (readCodes codes.length { bits := 0, bitCount := 0 } (packBytes codes)).1 =
      codes.map (fun c => (c : Int)) := by
  have hc' : ∀ c ∈ codes, c < 512 := fun c h => Nat.lt_succ_of_le (hc c h)
  obtain ⟨hlen, hbytes, hval⟩ := packBytes_spec codes hc'
  apply readCodes_spec codes hc' 0 0 (packBytes codes) (by omega) (by simp) hbytes
  · omega
  · simpa using hval

/-- Witness of C2 on the codes [5, 511, 0]. -/
theorem bitpacking_round_trip_witness :
    (readCodes 3 { bits := 0, bitCount := 0 } (packBytes [5, 511, 0])).1 = [5, 511, 0] :=
  bitpacking_round_trip [5, 511, 0] (by decide)

/-- C3. Packed layout: for N codes in [0, 511], pack writes exactly ceil(9 N / 8) bytes,
each below 256, and the file read as a little-endian number (byte j weighted 2^(8 j))
equals the sum of code i times 2^(9 i), codes counted from 0: the codes lie contiguously,
least significant bit first, and the padding bits of the last byte are zero. -/
theorem packed_layout (codes : List Nat) (hc : ∀ c ∈ codes, c ≤ 511) :
    (packBytes codes).length = (9 * codes.length + 7) / 8 ∧
      (∀ b ∈ packBytes codes, b < 256) ∧
      ∑ j in Finset.range (packBytes codes).length, (packBytes codes).getD j 0 * 2 ^ (8 * j) =
        ∑ i in Finset.range codes.length, codes.getD i 0 * 2 ^ (9 * i) := by
  have hc' : ∀ c ∈ codes, c < 512 := fun c h => Nat.lt_succ_of_le (hc c h)
  obtain ⟨hlen, hbytes, hval⟩ := packBytes_spec codes hc'
  refine ⟨by omega, hbytes, ?_⟩
  rw [← leValue_eq_sum, ← codesValue_eq_sum]
  exact hval

/-- Witness of C3 on the codes [5, 511, 0], which pack writes as the bytes
[5, 254, 3, 0]. -/
theorem packed_layout_witness :
    packBytes [5, 511, 0] = [5, 254, 3, 0] ∧
      (packBytes [5, 511, 0]).length = (9 * [5, 511, 0].length + 7) / 8 ∧
      (∀ b ∈ packBytes [5, 511, 0], b < 256) ∧
      ∑ j in Finset.range (packBytes [5, 511, 0]).length,
          (packBytes [5, 511, 0]).getD j 0 * 2 ^ (8 * j) =
        ∑ i in Finset.range [5, 511, 0].length, [5, 511, 0].getD i 0 * 2 ^ (9 * i) :=
  ⟨by decide, packed_layout [5, 511, 0] (by decide)⟩
/-- C4. Longest match: on a sorted word list, when `bestCode` returns a code `c >= 0`, the
word at index `c` is a prefix of `str`, and no word of the list of at most 20 characters
that is a prefix of `str` is longer. -/
theorem bestCode_longest_match (wl : WordList) (str : List Nat) (c : Int)
    (hlen : wl.len = wl.words.length) (hs : WordsSorted wl.words)
    (hc : bestCode wl str = c) (h0 : 0 ≤ c) :
    ∃ w, wl.words[c.toNat]? = some w ∧ w <+: str ∧
      ∀ w' ∈ wl.words, w' <+: str → w'.length ≤ 20 → w'.length ≤ w.length := by
  obtain ⟨m, h1, h2, h3, h4, h5, h6⟩ := bestCode_found wl str c hlen hc h0
  refine ⟨str.take m, h5, List.take_prefix m str, ?_⟩
  intro w' hw' hpre hlen'
  rw [List.length_take, Nat.min_eq_left h2]
  by_contra hgt
  have hnone := h6 w'.length (by omega) hpre.length_le hlen'
  rw [hlen] at hnone
  have := bsearch_none _ _ hs hnone
  rw [← List.prefix_iff_eq_take.mp hpre] at this
  exact this hw'

/-- Witness of C4: with "t" at index 0 and "the" at index 1, `bestCode` on "the" returns
1, the code of "the". -/
theorem bestCode_longest_match_witness :
    bestCode tTheWordList [116, 104, 101] = 1 ∧
      ∃ w, tTheWordList.words[(1 : Int).toNat]? = some w ∧ w <+: [116, 104, 101] ∧
        ∀ w' ∈ tTheWordList.words, w' <+: [116, 104, 101] → w'.length ≤ 20 →
          w'.length ≤ w.length :=
  ⟨by decide,
    bestCode_longest_match tTheWordList [116, 104, 101] 1 (by decide) (by decide)
      (by decide) (by decide)⟩

/-- C5. The search succeeds on valid input: for a word list built by `readWordList` and
a non-empty string of alphabet characters, `bestCode` does not return -1 but an index
below `len`; when no word of two or more characters is a prefix of the string, the word
at that index is the one-character word of the first character. -/
theorem bestCode_succeeds (length0 : Int) (file : List Nat) (wl : WordList)
    (str : List Nat) (hwl : readWordList length0 file = .done wl) (hne : str ≠ [])
    (hstr : ∀ b ∈ str, b ∈ alphabet) :
    ∃ c : Nat, bestCode wl str = (c : Int) ∧ c < wl.len ∧
      ((∀ w ∈ wl.words, w <+: str → w.length ≤ 1) → wl.words[c]? = some (str.take 1)) := by
  have hd := readWordList_dictionary length0 file wl hwl
  obtain ⟨c, m, hc, hclt, hm1, hm2, hm3, hw, _⟩ := bestCode_dictionary wl hd str hne hstr
  refine ⟨c, hc, hclt, ?_⟩
  intro hshort
  have hmem : str.take m ∈ wl.words := List.getElem?_mem hw
  have := hshort _ hmem (List.take_prefix m str)
  rw [List.length_take, Nat.min_eq_left hm2] at this
  have hm : m = 1 := by omega
  rw [hw, hm]

/-- Witness of C5: with the word list of "3 the\n2 in\n", the text "?!" has no word of
two characters or more as a prefix, and `bestCode` returns 34, the index of "?". -/
theorem bestCode_succeeds_witness :
    bestCode theInWordList [63, 33] = 34 ∧ theInWordList.words[34]? = some [63] ∧
      ∃ c : Nat, bestCode theInWordList [63, 33] = (c : Int) ∧ c < theInWordList.len ∧
        ((∀ w ∈ theInWordList.words, w <+: [63, 33] → w.length ≤ 1) →
          theInWordList.words[c]? = some (List.take 1 [63, 33])) :=
  ⟨by decide, by decide,
    bestCode_succeeds 0 theInFile theInWordList [63, 33] (by decide) (by decide)
      (by decide)⟩

/-- C6. Sorted dictionary: the word list `readWordList` returns is in non-decreasing
`strcmp` order (each entry against the next, and any earlier entry against any later
one), and it is a permutation of the words the reading loop stored followed by the 98
one-character words. -/
theorem readWordList_sorted (length0 : Int) (file : List Nat) (wl : WordList)
    (hwl : readWordList length0 file = .done wl) :
    (∀ i, i + 1 < wl.len → ∃ a b, wl.words[i]? = some a ∧ wl.words[i + 1]? = some b ∧
        strcmp a b ≤ 0) ∧
      WordsSorted wl.words ∧
      ∃ user, readUserWords length0 file = .done user ∧
        wl.words.Perm (user.words ++ singleWords) := by
  obtain ⟨hlen, hs, _, _⟩ := readWordList_dictionary length0 file wl hwl
  obtain ⟨user, hu, _, _, _, _, _, h3⟩ := readWordList_done length0 file wl hwl
  refine ⟨?_, hs, user, hu, by rw [h3]; exact List.perm_insertionSort _ _⟩
  intro i hi
  rw [hlen] at hi
  have hi0 : i < wl.words.length := by omega
  refine ⟨wl.words[i], wl.words[i + 1], List.getElem?_eq_getElem hi0,
    List.getElem?_eq_getElem hi, ?_⟩
  exact (List.pairwise_iff_getElem.mp hs) i (i + 1) hi0 hi (Nat.lt_succ_self i)

/-- Witness of C6 on the word file "3 the\n2 in\n". -/
theorem readWordList_sorted_witness :
    (∀ i, i + 1 < theInWordList.len → ∃ a b, theInWordList.words[i]? = some a ∧
        theInWordList.words[i + 1]? = some b ∧ strcmp a b ≤ 0) ∧
      WordsSorted theInWordList.words ∧
      ∃ user, readUserWords 0 theInFile = .done user ∧
        theInWordList.words.Perm (user.words ++ singleWords) :=
  readWordList_sorted 0 theInFile theInWordList (by decide)
/-- C7. Code bijection: when the word file holds no duplicate words, every index `i` of
the built list is the code `bestCode` returns for the word at `i`, and no other index
holds that word. -/
theorem code_bijection (length0 : Int) (file : List Nat) (user wl : WordList)
    (hu : readUserWords length0 file = .done user) (hnd : user.words.Nodup)
    (hwl : readWordList length0 file = .done wl) (i : Nat) (hi : i < wl.len) :
    ∃ w, wl.words[i]? = some w ∧ bestCode wl w = (i : Int) ∧
      ∀ j, j < wl.len → j ≠ i → wl.words[j]? ≠ some w := by
  have hnodup := readWordList_nodup length0 file user wl hu hnd hwl
  obtain ⟨hlen, hs, _, hwords⟩ := readWordList_dictionary length0 file wl hwl
  have hi' : i < wl.words.length := by omega
  have hget : wl.words[i]? = some wl.words[i] := List.getElem?_eq_getElem hi'
  have hmem : wl.words[i] ∈ wl.words := List.getElem_mem hi'
  obtain ⟨hw1, hw2, _⟩ := hwords _ hmem
  have huniq : ∀ j, wl.words[j]? = some wl.words[i] → j = i := by
    intro j hj
    obtain ⟨hj', e⟩ := List.getElem?_eq_some.mp hj
    exact (hnodup.getElem_inj_iff).mp e
  refine ⟨wl.words[i], hget, ?_, fun j _ hne hj => hne (huniq j hj)⟩
  have h0 : 0 ≤ bestCode wl wl.words[i] := by
    apply bestCode_finds wl _ wl.words[i].length hlen hs hw1 (Nat.le_refl _) hw2
    rw [List.take_length]; exact hmem
  obtain ⟨m, h1, h2, h3, h4, h5, h6⟩ := bestCode_found wl _ _ hlen rfl h0
  have hm : m = wl.words[i].length := by
    by_contra hne
    have hnone := h6 wl.words[i].length (by omega) (Nat.le_refl _) hw2
    rw [List.take_length, hlen] at hnone
    exact bsearch_none _ _ hs hnone hmem
  rw [hm, List.take_length] at h5
  have := huniq _ h5
  omega

/-- Witness of C7 on the word file "3 the\n2 in\n": index 89 holds "the", and `bestCode`
on "the" returns 89. -/
theorem code_bijection_witness :
    theInWordList.words[89]? = some [116, 104, 101] ∧
      ∃ w, theInWordList.words[89]? = some w ∧ bestCode theInWordList w = ((89 : Nat) : Int) ∧
        ∀ j, j < theInWordList.len → j ≠ 89 → theInWordList.words[j]? ≠ some w :=
  ⟨by decide,
    code_bijection 0 theInFile theInUserWords theInWordList (by decide) (by decide)
      (by decide) 89 (by decide)⟩

/-- C8, as the code has it. `MAX_WORDS` = 414 bounds the words read from the word file,
not the total: a built word list has at most 414 words from the file and, with the 98
one-character words, at most 512 words in all; and once 414 words are stored, a further
record in the file ends the program with the format error. -/
theorem max_word_count (length0 : Int) (file : List Nat) (wl : WordList)
    (hwl : readWordList length0 file = .done wl) :
    (∃ user, readUserWords length0 file = .done user ∧ user.len ≤ 414 ∧
        wl.len = user.len + 98 ∧ wl.len ≤ 512) ∧
      ∀ (length : Int) (stored : WordList) (fp : List Nat), 414 ≤ stored.len →
        (fscanfInt length fp).1 ≠ EOF →
        readRecord length stored fp = .exit ERR_WORDFILE_FMT := by
  obtain ⟨user, hu, _, hmax, _, h1, _, _⟩ := readWordList_done length0 file wl hwl
  simp only [MAX_WORDS] at hmax
  refine ⟨⟨user, hu, hmax, h1, by omega⟩, ?_⟩
  intro length stored fp hfull hne
  simp only [readRecord, hne, if_false, MAX_WORDS, ge_iff_le, hfull, or_true, if_true]

/-- Witness of the amended C8 on the word file "3 the\n2 in\n": 2 words from the file,
100 in all. -/
theorem max_word_count_witness :
    (∃ user, readUserWords 0 theInFile = .done user ∧ user.len ≤ 414 ∧
        theInWordList.len = user.len + 98 ∧ theInWordList.len ≤ 512) ∧
      ∀ (length : Int) (stored : WordList) (fp : List Nat), 414 ≤ stored.len →
        (fscanfInt length fp).1 ≠ EOF →
        readRecord length stored fp = .exit ERR_WORDFILE_FMT :=
  max_word_count 0 theInFile theInWordList (by decide)

/-- Counterexample to C8 as stated: the word file of 414 records "2 xy\n" is accepted,
and the word list built from it has 512 words, more than 414. -/
theorem max_word_count_counterexample :
    ∃ wl, readWordList 0 fullWordFile = .done wl ∧ wl.len = 512 ∧ ¬ wl.len ≤ 414 := by
  have hws : ∀ p ∈ (List.range 414).map (fun i => (97 + i / 26, 97 + i % 26)),
      p.1 ∈ alphabet ∧ p.2 ∈ alphabet := by
    intro p hp
    obtain ⟨i, hi, rfl⟩ := List.mem_map.mp hp
    rw [List.mem_range] at hi
    simp only [mem_alphabet_iff]
    omega
  obtain ⟨wl', e, hl⟩ := readRecords_two_letter _ hws (fullWordFile.length + 1) 0
    { len := 0, capacity := WORDLIST_INIT_SIZE, words := [] }
    (by simp only [fullWordFile, two_letter_file_length]; omega) (by simp [MAX_WORDS])
  refine ⟨_, by simp only [readWordList]; rw [show List.flatMap _ _ = fullWordFile from rfl] at e; rw [e], ?_, ?_⟩
  · simp only [addSingles_eq, hl, List.length_map, List.length_range]
  · simp only [addSingles_eq, hl, List.length_map, List.length_range]
    omega

/-- C9. Word-length bounds: when the reading loop is at a record that declares the length
`L` (the value `fscanf` converts), followed by a separator byte and `L` characters of the
alphabet, and fewer than `MAX_WORDS` words are stored, this pass of the loop ends the
program with the format error exactly when `L < 2` or `L > 20`; otherwise it stores the
word and goes on behind the byte that follows the word. -/
theorem word_length_bounds (length : Int) (wl : WordList) (fp : List Nat) (L : Int)
    (sep : Nat) (word rest : List Nat)
    (hdecl : fscanfInt length fp = (1, L, sep :: (word ++ rest)))
    (hlen : word.length = L.toNat) (hword : ∀ b ∈ word, b ∈ alphabet)
    (hcount : wl.len < MAX_WORDS) :
    (readRecord length wl fp = .exit ERR_WORDFILE_FMT ↔ (L < 2 ∨ L > 20)) ∧
      (¬ (L < 2 ∨ L > 20) →
        readRecord length wl fp =
          .done (some (L,
            pushWord (if wl.len ≥ wl.capacity then { wl with capacity := wl.capacity * 2 }
              else wl) word,
            (fgetc rest).2))) := by
  by_cases hL : L < 2 ∨ L > 20
  · have := readRecord_reject length wl fp L _ hdecl hL
    exact ⟨⟨fun _ => hL, fun _ => this⟩, fun h => absurd hL h⟩
  · have := readRecord_accept length wl fp L sep word rest hdecl hlen hword hcount (by omega)
    refine ⟨⟨fun h => ?_, fun h => absurd h hL⟩, fun _ => this⟩
    rw [this] at h
    exact Run.noConfusion h

/-- Witness of C9: the record "20 aaaaaaaaaaaaaaaaaaaa\n" at the start of a word file is
stored; the whole file is accepted, while the files "21 aaaaaaaaaaaaaaaaaaaaa\n" and
"1 a\n" end with the format error. -/
theorem word_length_bounds_witness :
    readWordList 0 length20File = .done length20WordList ∧
      readWordList 0 length21File = .exit ERR_WORDFILE_FMT ∧
      readWordList 0 length1File = .exit ERR_WORDFILE_FMT ∧
      (readRecord 0 emptyWordList length20File = .exit ERR_WORDFILE_FMT ↔
        ((20 : Int) < 2 ∨ (20 : Int) > 20)) ∧
      (¬ ((20 : Int) < 2 ∨ (20 : Int) > 20) →
        readRecord 0 emptyWordList length20File =
          .done (some (20,
            pushWord (if emptyWordList.len ≥ emptyWordList.capacity then
                { emptyWordList with capacity := emptyWordList.capacity * 2 }
              else emptyWordList) (List.replicate 20 97),
            (fgetc [10]).2))) :=
  ⟨by decide, by decide, by decide,
    word_length_bounds 0 emptyWordList length20File 20 32 (List.replicate 20 97) [10]
      (by decide) (by decide) (by decide) (by decide)⟩

/-- C10. Mandatory singles: for every word file that `readWordList` accepts, the word
list holds the one-character word of each of the 98 characters of the alphabet (the bytes
for which `validChar` is true), and `len`, the number of its words, is the number of words
read from the file plus 98. -/
theorem mandatory_singles (length0 : Int) (file : List Nat) (wl : WordList)
    (hwl : readWordList length0 file = .done wl) :
    (∀ c ∈ alphabet, [c] ∈ wl.words) ∧ alphabet.length = 98 ∧
      (∀ c : Nat, c < 256 → validChar (toChar (c : Int)) = true → [c] ∈ wl.words) ∧
      ∃ user, readUserWords length0 file = .done user ∧ user.words.length = user.len ∧
        wl.len = user.len + 98 ∧ wl.words.length = wl.len := by
  obtain ⟨hlen, _, hsingle, _⟩ := readWordList_dictionary length0 file wl hwl
  obtain ⟨user, hu, hulen, _, _, h1, _, _⟩ := readWordList_done length0 file wl hwl
  exact ⟨hsingle, alphabet_length,
    fun c hc hv => hsingle c ((validChar_byte_iff c hc).mp hv),
    user, hu, hulen.symm, h1, hlen.symm⟩

/-- Witness of C10 on the word file "3 the\n2 in\n": 2 words from the file, 100 in all. -/
theorem mandatory_singles_witness :
    (∀ c ∈ alphabet, [c] ∈ theInWordList.words) ∧ alphabet.length = 98 ∧
      (∀ c : Nat, c < 256 → validChar (toChar (c : Int)) = true →
        [c] ∈ theInWordList.words) ∧
      ∃ user, readUserWords 0 theInFile = .done user ∧ user.words.length = user.len ∧
        theInWordList.len = user.len + 98 ∧ theInWordList.words.length = theInWordList.len :=
  mandatory_singles 0 theInFile theInWordList (by decide)

/-- C11. Alphabet predicate: `validChar(ch)` is true exactly for tab, line feed, carriage
return and the characters 0x20 to 0x7E; among the 256 byte values, read as `char`, it is
true for exactly 98. -/
theorem validChar_alphabet :
    (∀ ch : Int, validChar ch = true ↔
        (ch = 0x09 ∨ ch = 0x0A ∨ ch = 0x0D ∨ (0x20 ≤ ch ∧ ch ≤ 0x7E))) ∧
      ((List.range 256).filter (fun b => validChar (toChar (b : Int)))).length = 98 := by
  refine ⟨fun ch => ?_, by decide⟩
  rw [validChar_iff]

/-- C12, the code at the failing input: `flushBits` on the empty state `{ 0, 0 }` writes
a zero byte; it writes one byte whatever the state, while the guarded flush at the end
of pack writes nothing on a state without pending bits. -/
theorem flushBits_empty_emits :
    flushBits { bits := 0, bitCount := 0 } [] = ({ bits := 0, bitCount := 0 }, [0]) ∧
      (∀ (pending : PendingBits) (fp : List Nat),
        flushBits pending fp =
          ({ bits := 0, bitCount := 0 }, fp ++ [pending.bits % 256])) ∧
      ∀ (bits : Nat) (fp : List Nat),
        packFlush { bits := bits, bitCount := 0 } fp = ({ bits := bits, bitCount := 0 }, fp) := by
  refine ⟨by decide, fun pending fp => rfl, fun bits fp => ?_⟩
  simp [packFlush]

/-- C13, the code at the failing input: with the 100 words of "3 the\n2 in\n", the
two bytes 0xFF 0x01 make `readCode` return 511, and the loop of unpack goes on to use
`wordList->words[511]`; no test stops it. -/
theorem unpack_code_out_of_range :
    (readCode { bits := 0, bitCount := 0 } code511File).1 = 511 ∧
      theInWordList.len = 100 ∧
      unpack theInWordList code511File = .undef := by
  decide

/-- C14, the code at the failing input: at the end of the stream `readCode` does not
return -1 but a code made of the bits of `EOF` stored in an `unsigned char`, 511 from
the empty state; its result is never negative. -/
theorem readCode_at_end_of_file :
    readCode { bits := 0, bitCount := 0 } [] = (511, { bits := 127, bitCount := 7 }, []) ∧
      readCode { bits := 5, bitCount := 3 } [] = (509, { bits := 3, bitCount := 2 }, []) ∧
      ∀ (pending : PendingBits) (fp : List Nat), 0 ≤ (readCode pending fp).1 := by
  refine ⟨by decide, by decide, fun pending fp => ?_⟩
  simp only [readCode]
  exact Int.ofNat_nonneg _

/-- C15. Invalid input character: for a word list built by `readWordList` and a NUL-free
text, pack ends with the invalid-character error exactly when the text has a character
for which `validChar` is false, and the byte it reports is the first such character:
every character before it is valid, so none was skipped inside a matched word. -/
theorem invalid_character (length0 : Int) (file : List Nat) (wl : WordList)
    (text : List Nat) (hwl : readWordList length0 file = .done wl)
    (hbytes : ∀ b ∈ text, b < 256) (hnul : ∀ b ∈ text, b ≠ 0) :
    ((∃ byte, pack wl text = .invalidChar byte) ↔
        ∃ b ∈ text, validChar (toChar (b : Int)) = false) ∧
      ∀ byte, pack wl text = .invalidChar byte ↔
        ∃ pre post, text = pre ++ byte :: post ∧
          (∀ b ∈ pre, validChar (toChar (b : Int)) = true) ∧
          validChar (toChar (byte : Int)) = false := by
  have hd := readWordList_dictionary length0 file wl hwl
  have hfirst : ∀ byte, pack wl text = .invalidChar byte ↔
      ∃ pre post, text = pre ++ byte :: post ∧
        (∀ b ∈ pre, validChar (toChar (b : Int)) = true) ∧
        validChar (toChar (byte : Int)) = false := by
    intro byte
    constructor
    · intro h
      rcases first_invalid text with hall | ⟨pre, c, post, e, h1, h2⟩
      · obtain ⟨codes, pending, output, hp, _⟩ :=
          text_round_trip length0 file wl text hwl hall
        rw [hp] at h
        exact PackRun.noConfusion h
      · have hcmem : c ∈ text := by rw [e]; simp
        have := pack_invalid wl hd pre post c h1 (hnul c hcmem) (hbytes c hcmem) h2
        rw [← e, h] at this
        simp only [PackRun.invalidChar.injEq] at this
        subst this
        refine ⟨pre, post, e, ?_, ?_⟩
        · intro b hb
          exact (validChar_byte_iff b (hbytes b (by rw [e]; simp [hb]))).mpr (h1 b hb)
        · cases hv : validChar (toChar (byte : Int)) with
          | false => rfl
          | true => exact absurd ((validChar_byte_iff byte (hbytes byte hcmem)).mp hv) h2
    · rintro ⟨pre, post, e, h1, h2⟩
      have hcmem : byte ∈ text := by rw [e]; simp
      have hca : byte ∉ alphabet := by
        intro h
        rw [(validChar_byte_iff byte (hbytes byte hcmem)).mpr h] at h2
        exact Bool.noConfusion h2
      rw [e]
      apply pack_invalid wl hd pre post byte ?_ (hnul byte hcmem) (hbytes byte hcmem) hca
      intro b hb
      exact (validChar_byte_iff b (hbytes b (by rw [e]; simp [hb]))).mp (h1 b hb)
  refine ⟨?_, hfirst⟩
  constructor
  · rintro ⟨byte, h⟩
    obtain ⟨pre, post, e, _, h2⟩ := (hfirst byte).mp h
    exact ⟨byte, by rw [e]; simp, h2⟩
  · rintro ⟨b, hb, hv⟩
    rcases first_invalid text with hall | ⟨pre, c, post, e, h1, h2⟩
    · have := (validChar_byte_iff b (hbytes b hb)).mpr (hall b hb)
      rw [this] at hv
      exact Bool.noConfusion hv
    · have hcmem : c ∈ text := by rw [e]; simp
      exact ⟨c, by
        rw [e]; exact pack_invalid wl hd pre post c h1 (hnul c hcmem) (hbytes c hcmem) h2⟩

/-- Witness of C15: with the word list of "3 the\n2 in\n", the text "the" followed by
the byte 0x80 and "in" ends pack with the invalid-character error for the byte 0x80. -/
theorem invalid_character_witness :
    pack theInWordList invalidText = .invalidChar 128 ∧
      ((∃ byte, pack theInWordList invalidText = .invalidChar byte) ↔
        ∃ b ∈ invalidText, validChar (toChar (b : Int)) = false) ∧
      ∀ byte, pack theInWordList invalidText = .invalidChar byte ↔
        ∃ pre post, invalidText = pre ++ byte :: post ∧
          (∀ b ∈ pre, validChar (toChar (b : Int)) = true) ∧
          validChar (toChar (byte : Int)) = false :=
  ⟨by decide,
    invalid_character 0 theInFile theInWordList invalidText (by decide)
      (by decide) (by decide)⟩

/-- C16, as the code has it: from a pending count `p` in [0, 7], `writeCode` leaves the
count `(p + 1) % 8` and writes one byte when `p <= 6` and two bytes when `p = 7` (the
second through `flushBits`); when the buffer holds only its `p` pending bits, the bytes
written, with the new buffer above them, are the old pending bits with the code above. -/
theorem writeCode_bytes (code p bits : Nat) (fp : List Nat) (hp : p ≤ 7)
    (hc : code ≤ 511) :
    ∃ out, (writeCode code { bits := bits, bitCount := p } fp).2 = fp ++ out ∧
      out.length = (if p = 7 then 2 else 1) ∧
      (writeCode code { bits := bits, bitCount := p } fp).1.bitCount = (p + 1) % 8 ∧
      (bits < 2 ^ p →
        leValue (out ++ [(writeCode code { bits := bits, bitCount := p } fp).1.bits]) =
          bits + 2 ^ p * code) := by
  by_cases h7 : p = 7
  · subst h7
    refine ⟨[((code <<< 7) % 256 ||| bits) % 256 % 256, (code >>> 1) % 256 % 256], ?_, ?_,
      ?_, ?_⟩
    · simp [writeCode, flushBits, fputc, BITS_PER_BYTE]
    · simp
    · simp [writeCode, flushBits, fputc, BITS_PER_BYTE]
    · intro hb
      obtain ⟨out, b', e, _, _, hval, _⟩ := writeCode_spec code 7 bits fp hp hb (by omega)
      have e2 : writeCode code { bits := bits, bitCount := 7 } fp =
          ({ bits := 0, bitCount := 0 },
            fp ++ [((code <<< 7) % 256 ||| bits) % 256 % 256, (code >>> 1) % 256 % 256]) := by
        simp [writeCode, flushBits, fputc, BITS_PER_BYTE]
      rw [e2] at e ⊢
      simp only [Prod.mk.injEq, PendingBits.mk.injEq, List.append_cancel_left_eq] at e
      obtain ⟨⟨hb', _⟩, hout⟩ := e
      rw [hout, hb']
      exact hval
  · have h8 : ¬ (p + 1 = 8) := by omega
    have e2 : writeCode code { bits := bits, bitCount := p } fp =
        ({ bits := (code >>> (8 - p)) % 256, bitCount := (p + 1) % 8 },
          fp ++ [((code <<< p) % 256 ||| bits) % 256 % 256]) := by
      simp [writeCode, flushBits, fputc, BITS_PER_BYTE, h8]
    refine ⟨[((code <<< p) % 256 ||| bits) % 256 % 256], ?_, ?_, ?_, ?_⟩
    · rw [e2]
    · simp [h7]
    · rw [e2]
    · intro hb
      obtain ⟨out, b', e, _, _, hval, _⟩ := writeCode_spec code p bits fp hp hb (by omega)
      rw [e2] at e ⊢
      simp only [Prod.mk.injEq, PendingBits.mk.injEq, List.append_cancel_left_eq] at e
      obtain ⟨⟨hb', _⟩, hout⟩ := e
      rw [hout, hb']
      exact hval

/-- Witness of the amended C16: the code 511 written on the pending state of count 7 and
buffer 127 gives the two bytes 255 and 255 and an empty state; the code 5 written on the
empty state gives the one byte 5. -/
theorem writeCode_bytes_witness :
    writeCode 511 { bits := 127, bitCount := 7 } [] =
        ({ bits := 0, bitCount := 0 }, [255, 255]) ∧
      writeCode 5 { bits := 0, bitCount := 0 } [] = ({ bits := 0, bitCount := 1 }, [5]) ∧
      ∃ out, (writeCode 511 { bits := 127, bitCount := 7 } []).2 = [] ++ out ∧
        out.length = (if 7 = 7 then 2 else 1) ∧
        (writeCode 511 { bits := 127, bitCount := 7 } []).1.bitCount = (7 + 1) % 8 ∧
        (127 < 2 ^ 7 →
          leValue (out ++ [(writeCode 511 { bits := 127, bitCount := 7 } []).1.bits]) =
            127 + 2 ^ 7 * 511) :=
  ⟨by decide, by decide, writeCode_bytes 511 7 127 [] (by decide) (by decide)⟩

/-- Counterexample to C16 as stated: on a pending count of 7, in the range [0, 7], one
call of `writeCode` with the code 0 writes two bytes, not one. -/
theorem writeCode_one_byte_counterexample :
    (7 : Nat) ≤ 7 ∧ (0 : Nat) ≤ 511 ∧
      (writeCode 0 { bits := 0, bitCount := 7 } []).2 = [0, 0] ∧
      ¬ (writeCode 0 { bits := 0, bitCount := 7 } []).2.length = ([] : List Nat).length + 1 := by
  decide

/-- C17. File-size-driven decoding: when the input of unpack is the file pack writes for
N codes (each at most 511 and an index of the word list), and `sz` is its size, the loop
over `i < sz` calls `readCode` N times and obtains these codes in order, writes their
words, and consumes the `sz` bytes and no more: bytes put behind them would be left
unread, so no read goes past the end of the file. -/
theorem unpack_reads_all_codes (wl : WordList) (codes : List Nat)
    (hc : ∀ c ∈ codes, c ≤ 511 ∧ c < wl.words.length) :
    ∃ text, decodeCodes wl codes = some text ∧
      unpack wl (packBytes codes) = .done (codes.map (fun c => (c : Int))) text [] ∧
      ∀ extra : List Nat,
        unpackLoop wl (packBytes codes).length ((packBytes codes).length + 1) 0
            { bits := 0, bitCount := 0 } (packBytes codes ++ extra) [] [] =
          .done (codes.map (fun c => (c : Int))) text extra := by
  have hc' : ∀ c ∈ codes, c < 512 := fun c h => Nat.lt_succ_of_le (hc c h).1
  obtain ⟨hlen, hbytes, hval⟩ := packBytes_spec codes hc'
  have hall : ∀ extra : List Nat, ∃ text, decodeCodes wl codes = some text ∧
      unpackLoop wl (packBytes codes).length ((packBytes codes).length + 1) 0
          { bits := 0, bitCount := 0 } (packBytes codes ++ extra) [] [] =
        .done ([] ++ codes.map (fun c => (c : Int))) ([] ++ text) extra := by
    intro extra
    exact unpackLoop_spec wl (packBytes codes).length extra codes
      (fun c h => ⟨hc' c h, (hc c h).2⟩) ((packBytes codes).length + 1) 0 0 0
      (packBytes codes) [] [] (by omega) (by simp) hbytes (by omega) (by simpa using hval)
      (by omega) (by omega)
  obtain ⟨text, hdec, h0⟩ := hall []
  refine ⟨text, hdec, ?_, ?_⟩
  · simpa [unpack] using h0
  · intro extra
    obtain ⟨text', hdec', h⟩ := hall extra
    rw [hdec] at hdec'
    simp only [Option.some.injEq] at hdec'
    subst hdec'
    simpa using h

/-- Witness of C17: the four bytes pack writes for the codes of "the", " " and "in" are
read back by unpack as these three codes and written as "the in". -/
theorem unpack_reads_all_codes_witness :
    packBytes [89, 3, 77] = [89, 6, 52, 1] ∧
      ∃ text, decodeCodes theInWordList [89, 3, 77] = some text ∧
        unpack theInWordList (packBytes [89, 3, 77]) =
          .done ([89, 3, 77].map (fun c => (c : Int))) text [] ∧
        ∀ extra : List Nat,
          unpackLoop theInWordList (packBytes [89, 3, 77]).length
              ((packBytes [89, 3, 77]).length + 1) 0
              { bits := 0, bitCount := 0 } (packBytes [89, 3, 77] ++ extra) [] [] =
            .done ([89, 3, 77].map (fun c => (c : Int))) text extra :=
  ⟨by decide, unpack_reads_all_codes theInWordList [89, 3, 77] (by decide)⟩

/-- C18. Codes fit in 9 bits: a word list built by `readWordList` has at most 512 words,
so `bestCode` never returns more than 511, and on a text of the alphabet every code that
the loop of pack hands to `writeCode` is an index of the list, at most 511. -/
theorem codes_fit_nine_bits (length0 : Int) (file : List Nat) (wl : WordList)
    (hwl : readWordList length0 file = .done wl) :
    wl.len ≤ 512 ∧ (∀ str : List Nat, bestCode wl str ≤ 511) ∧
      ∀ text : List Nat, (∀ b ∈ text, b ∈ alphabet) →
        ∃ codes pending output, pack wl text = .done codes pending output text.length ∧
          ∀ c ∈ codes, c < wl.len ∧ c ≤ 511 := by
  have hd := readWordList_dictionary length0 file wl hwl
  obtain ⟨user, _, _, hmax, _, h1, _, _⟩ := readWordList_done length0 file wl hwl
  simp only [MAX_WORDS] at hmax
  have h512 : wl.len ≤ 512 := by omega
  refine ⟨h512, ?_, ?_⟩
  · intro str
    by_cases h0 : 0 ≤ bestCode wl str
    · obtain ⟨m, _, _, _, h4, _⟩ := bestCode_found wl str _ hd.1 rfl h0
      omega
    · omega
  · intro text htext
    obtain ⟨cs, e1, _, e3⟩ := packLoop_spec wl hd text htext ((readFile text).length + 1) 0
      { bits := 0, bitCount := 0 } [] [] (Nat.zero_le _) (by simp [readFile]; omega)
    refine ⟨cs, (packFlush (writeCodes cs { bits := 0, bitCount := 0 } []).1
      (writeCodes cs { bits := 0, bitCount := 0 } []).2).1, packBytes cs, ?_, ?_⟩
    · simp only [pack, e1, List.nil_append, packBytes]
    · intro c hc
      have := e3 c hc
      exact ⟨this, by omega⟩

/-- Witness of C18 on the word file "3 the\n2 in\n". -/
theorem codes_fit_nine_bits_witness :
    theInWordList.len ≤ 512 ∧ (∀ str : List Nat, bestCode theInWordList str ≤ 511) ∧
      ∀ text : List Nat, (∀ b ∈ text, b ∈ alphabet) →
        ∃ codes pending output,
          pack theInWordList text = .done codes pending output text.length ∧
          ∀ c ∈ codes, c < theInWordList.len ∧ c ≤ 511 :=
  codes_fit_nine_bits 0 theInFile theInWordList (by decide)

/-- C19. Encode loop termination: for a word list built by `readWordList` and a text of
the alphabet, the loop of pack ends, with `pos` equal to the length of the text; and at
every offset `pos` before the end, one pass of the loop hands the code of a word of 1 to
20 characters to `writeCode` and moves `pos` forward by the length of that word, not
beyond the end of the text. -/
theorem encode_loop_terminates (length0 : Int) (file : List Nat) (wl : WordList)
    (text : List Nat) (hwl : readWordList length0 file = .done wl)
    (htext : ∀ b ∈ text, b ∈ alphabet) :
    (∃ codes pending output, pack wl text = .done codes pending output text.length) ∧
      ∀ pos, pos < text.length →
        ∃ (c : Nat) (w : Word),
          bestCode wl (cstr ((readFile text).drop pos)) = (c : Int) ∧
          wl.words[c]? = some w ∧ 1 ≤ w.length ∧ w.length ≤ 20 ∧
          pos + w.length ≤ text.length ∧
          ∀ (fuel : Nat) (pending : PendingBits) (output codes : List Nat),
            packLoop wl (readFile text) (fuel + 1) pos pending output codes =
              packLoop wl (readFile text) fuel (pos + w.length)
                (writeCode c pending output).1 (writeCode c pending output).2
                (codes ++ [c]) := by
  have hd := readWordList_dictionary length0 file wl hwl
  refine ⟨?_, ?_⟩
  · obtain ⟨codes, pending, output, hp, _⟩ := text_round_trip length0 file wl text hwl htext
    exact ⟨codes, pending, output, hp⟩
  · intro pos hlt
    have hdrop := readFile_drop text pos (Nat.le_of_lt hlt)
    have hne : text.drop pos ≠ [] := by
      intro h
      have := congrArg List.length h
      simp at this
      omega
    have hsub : ∀ b ∈ text.drop pos, b ∈ alphabet :=
      fun b hb => htext b (List.mem_of_mem_drop hb)
    obtain ⟨c, m, hc, hclt, hm1, hm2, hm3, hw, _⟩ :=
      bestCode_dictionary wl hd (text.drop pos) hne hsub
    obtain ⟨x, xs, hx⟩ := List.exists_cons_of_ne_nil hne
    have hxa : x ∈ alphabet := hsub x (by rw [hx]; simp)
    have hcstr : cstr (text.drop pos ++ [0]) = text.drop pos :=
      cstr_append_nul (text.drop pos) [] (fun b hb => alphabet_ne_zero b (hsub b hb))
    have hmlen : (List.take m (List.drop pos text)).length = m := by
      rw [List.length_take]; omega
    simp only [List.length_drop] at hm2
    refine ⟨c, List.take m (List.drop pos text), by rw [hdrop, hcstr]; exact hc, hw,
      by omega, by simp only [WORD_MAX] at hm3; omega, by omega, ?_⟩
    intro fuel pending output codes
    have hv : validChar (toChar (x : Int)) = true :=
      (validChar_byte_iff x (alphabet_lt x hxa)).mpr hxa
    have hnn : ¬ ((c : Int) < 0) := by omega
    have hcstr2 : cstr (x :: (xs ++ [0])) = text.drop pos := by
      rw [hx] at hcstr ⊢
      simpa using hcstr
    rw [hx] at hc hw hmlen hcstr2
    simp only [packLoop, hdrop, hx, List.cons_append, alphabet_ne_zero x hxa, if_false, hv,
      Bool.not_true, Bool.false_eq_true, hcstr2, hc, hnn, Int.toNat_ofNat, hw, hmlen]

/-- Witness of C19 on the word file "3 the\n2 in\n" and the text "the in". -/
theorem encode_loop_terminates_witness :
    (∃ codes pending output,
        pack theInWordList theInText = .done codes pending output theInText.length) ∧
      ∀ pos, pos < theInText.length →
        ∃ (c : Nat) (w : Word),
          bestCode theInWordList (cstr ((readFile theInText).drop pos)) = (c : Int) ∧
          theInWordList.words[c]? = some w ∧ 1 ≤ w.length ∧ w.length ≤ 20 ∧
          pos + w.length ≤ theInText.length ∧
          ∀ (fuel : Nat) (pending : PendingBits) (output codes : List Nat),
            packLoop theInWordList (readFile theInText) (fuel + 1) pos pending output codes =
              packLoop theInWordList (readFile theInText) fuel (pos + w.length)
                (writeCode c pending output).1 (writeCode c pending output).2
                (codes ++ [c]) :=
  encode_loop_terminates 0 theInFile theInWordList theInText (by decide) (by decide)

/-- C20, the code at the failing input: for a word file of 31 records the reading loop
ends with 31 words in an array of capacity 128, and the 98 one-character words are
appended with no test for a resize: the returned list has `len` 129 and `capacity` 128,
so the last word was stored at index 128, outside the array. -/
theorem capacity_overflow :
    ∃ user wl, readUserWords 0 thirtyOneWordFile = .done user ∧ user.len = 31 ∧
      user.capacity = 128 ∧ readWordList 0 thirtyOneWordFile = .done wl ∧
      wl.len = 129 ∧ wl.capacity = 128 ∧ ¬ wl.len ≤ wl.capacity := by
  have h1 : (match readUserWords 0 thirtyOneWordFile with
      | .done user => (user.len, user.capacity)
      | _ => (0, 0)) = (31, 128) := by decide
  have h2 : (match readWordList 0 thirtyOneWordFile with
      | .done wl => (wl.len, wl.capacity)
      | _ => (0, 0)) = (129, 128) := by decide
  cases hu : readUserWords 0 thirtyOneWordFile with
  | done user =>
    cases hr : readWordList 0 thirtyOneWordFile with
    | done wl =>
      rw [hu] at h1
      rw [hr] at h2
      simp only [Prod.mk.injEq] at h1 h2
      exact ⟨user, wl, rfl, h1.1, h1.2, rfl, h2.1, h2.2, by omega⟩
    | exit status =>
      rw [hr] at h2
      have := congrArg Prod.fst h2
      simp at this
    | fuelOut => rw [hr] at h2; exact absurd h2 (by decide)
  | exit status =>
    rw [hu] at h1
    have := congrArg Prod.fst h1
    simp at this
  | fuelOut => rw [hu] at h1; exact absurd h1 (by decide)

/-- C21. Writer state invariant: from a pending state with count `p` in [0, 7] and a
buffer below `2 ^ p`, `writeCode` with a code in [0, 511] leaves the count
`(p + 9) % 8`, again in [0, 7], and a buffer below 2 to the power of the new count;
`flushBits` resets buffer and count to 0; and after N calls of `writeCode` from the
empty state the count is `N % 8`, with the buffer below 2 to that power. -/
theorem writer_state_invariant (code p bits : Nat) (fp : List Nat) (hp : p ≤ 7)
    (hb : bits < 2 ^ p) (hc : code ≤ 511) :
    (writeCode code { bits := bits, bitCount := p } fp).1.bitCount = (p + 9) % 8 ∧
      (writeCode code { bits := bits, bitCount := p } fp).1.bitCount ≤ 7 ∧
      (writeCode code { bits := bits, bitCount := p } fp).1.bits <
        2 ^ (writeCode code { bits := bits, bitCount := p } fp).1.bitCount ∧
      (∀ (pending : PendingBits) (sink : List Nat),
        (flushBits pending sink).1 = { bits := 0, bitCount := 0 }) ∧
      ∀ codes : List Nat, (∀ c ∈ codes, c ≤ 511) →
        (writeCodes codes { bits := 0, bitCount := 0 } []).1.bitCount = codes.length % 8 ∧
        (writeCodes codes { bits := 0, bitCount := 0 } []).1.bits <
          2 ^ (codes.length % 8) := by
  obtain ⟨out, b', e, hb', _, _, _⟩ := writeCode_spec code p bits fp hp hb (by omega)
  have hmod : (p + 9) % 8 = (p + 1) % 8 := by omega
  rw [e, hmod]
  refine ⟨rfl, ?_, hb', fun pending sink => rfl, ?_⟩
  · show (p + 1) % 8 ≤ 7
    omega
  · intro codes hcodes
    obtain ⟨fp', b2, e2, hb2, _, _, _⟩ := writeCodes_spec codes
      (fun c h => Nat.lt_succ_of_le (hcodes c h)) 0 0 [] (by omega) (by simp) (by simp)
    simp only [Nat.zero_add] at e2 hb2
    rw [e2]
    exact ⟨rfl, hb2⟩

/-- Witness of C21: the code 511 written on the state of count 7 and buffer 127 leaves
the empty state; the code 511 written on the state of count 3 and buffer 5 leaves the
count 4 and the buffer 15. -/
theorem writer_state_invariant_witness :
    (writeCode 511 { bits := 127, bitCount := 7 } []).1 = { bits := 0, bitCount := 0 } ∧
      (writeCode 511 { bits := 5, bitCount := 3 } []).1 = { bits := 15, bitCount := 4 } ∧
      ((writeCode 511 { bits := 5, bitCount := 3 } []).1.bitCount = (3 + 9) % 8 ∧
        (writeCode 511 { bits := 5, bitCount := 3 } []).1.bitCount ≤ 7 ∧
        (writeCode 511 { bits := 5, bitCount := 3 } []).1.bits <
          2 ^ (writeCode 511 { bits := 5, bitCount := 3 } []).1.bitCount ∧
        (∀ (pending : PendingBits) (sink : List Nat),
          (flushBits pending sink).1 = { bits := 0, bitCount := 0 }) ∧
        ∀ codes : List Nat, (∀ c ∈ codes, c ≤ 511) →
          (writeCodes codes { bits := 0, bitCount := 0 } []).1.bitCount = codes.length % 8 ∧
          (writeCodes codes { bits := 0, bitCount := 0 } []).1.bits <
            2 ^ (codes.length % 8)) :=
  ⟨by decide, by decide, writer_state_invariant 511 3 5 [] (by decide) (by decide) (by decide)⟩

end CTextCompression
